import Mathlib

/-!
A shallow embedding of the BookVerse platform tag-invariant engine
(`app/tagging_service.py`) and of the prerelease-aware semantic-version
comparator (`app/main.py`), together with theorems settling the
specification's claims about them.

The registry snapshot for one application is a `List VersionRecord`; the
engine functions are modelled as pure functions from a snapshot to the list
of PATCH calls they issue, and `applyPatches` gives the registry state these
calls produce.
-/

namespace BookVerse

/-- ASCII whitespace as stripped by Python (`str.strip`, the regex `\s`). -/
def isPyWS (c : Char) : Bool :=
  c == ' ' || c == '\t' || c == '\n' || c == '\r' || c == '\x0b' || c == '\x0c'

/-- Strip leading and trailing whitespace from a character list. -/
def stripWS (l : List Char) : List Char :=
  ((l.dropWhile isPyWS).reverse.dropWhile isPyWS).reverse

/-- Numeric value of a list of decimal digit characters. -/
def digitsVal (l : List Char) : Nat :=
  l.foldl (fun a c => a * 10 + (c.toNat - 48)) 0

/-- Value of a non-empty all-digit character list, `none` otherwise. -/
def decDigits? (l : List Char) : Option Nat :=
  if !l.isEmpty && l.all Char.isDigit then some (digitsVal l) else none

/-- Model of Python `int(s)` on the strings this code can feed it: optional
surrounding whitespace, an optional single sign, then decimal digits.
(Digit-group underscores are not modelled; no input here contains them.) -/
def pyInt? (s : List Char) : Option Int :=
  if (stripWS s).head? = some '-' then
    (decDigits? (stripWS s).tail).map (fun n => -(n : Int))
  else if (stripWS s).head? = some '+' then
    (decDigits? (stripWS s).tail).map (fun n => (n : Int))
  else
    (decDigits? (stripWS s)).map (fun n => (n : Int))

/-- Model of Python `s.split('.')` on character lists; never returns `[]`. -/
def splitDots : List Char → List (List Char)
  | [] => [[]]
  | c :: rest =>
    if c = '.' then [] :: splitDots rest
    else
      match splitDots rest with
      | [] => [[c]]
      | h :: t => (c :: h) :: t

/-- Model of Python `s.startswith(p)`. -/
def pyStartsWith (s p : String) : Bool :=
  p.toList.isPrefixOf s.toList

/-- Model of Python `str.upper()` (ASCII, as used on stage/status strings). -/
def pyUpper (s : String) : String :=
  String.mk (s.toList.map Char.toUpper)

namespace TaggingService

/-- `tagging_service.semver_key` (lines 126-132): split on dots and convert
every part with `int`; any failure yields the sentinel key `(0, 0, 0)`. -/
def semver_key (version : String) : List Int :=
  match (splitDots version.toList).mapM pyInt? with
  | some ks => ks
  | none => [0, 0, 0]

/-- Lexicographic strict order on integer-tuple keys, as Python compares
tuples (a strict prefix is smaller than any extension). -/
def keyLT : List Int → List Int → Bool
  | [], [] => false
  | [], _ :: _ => true
  | _ :: _, [] => false
  | a :: as, b :: bs =>
    if a < b then true else if a = b then keyLT as bs else false

/-- Descending key order used by `sort_versions_by_semver_desc`. -/
def keyGE (a b : String) : Prop := keyLT (semver_key a) (semver_key b) = false

instance : DecidableRel keyGE := fun a b => by
  unfold keyGE; infer_instance

/-- `tagging_service.sort_versions_by_semver_desc` (lines 124-134): Python's
stable `sorted(versions, key=semver_key, reverse=True)`, modelled as the
stable insertion sort in descending key order (stable sorts of a list under
a total preorder coincide). -/
def sort_versions_by_semver_desc (versions : List String) : List String :=
  List.insertionSort keyGE versions

end TaggingService

/-- One version record of the external registry (§3 of the spec): the fields
`tagging_service.py` reads or writes. `properties` maps a property key to an
ordered list of strings, first binding wins on lookup. -/
structure VersionRecord where
  version : String
  release_status : String
  current_stage : String
  tag : String
  properties : List (String × List String)
deriving DecidableEq

def LATEST_TAG : String := "latest"

def BACKUP_BEFORE_LATEST : String := "original_tag_before_latest"

def BACKUP_BEFORE_QUARANTINE : String := "original_tag_before_quarantine"

/-- Look a property key up (first binding wins). -/
def lookupProp (props : List (String × List String)) (key : String) : Option (List String) :=
  (props.find? (fun kv => kv.1 == key)).map (fun kv => kv.2)

/-- Set one property key to the given value list, replacing an existing
binding in place or appending a new one. -/
def setProp (props : List (String × List String)) (key : String) (vals : List String) :
    List (String × List String) :=
  if props.any (fun kv => kv.1 == key) then
    props.map (fun kv => if kv.1 == key then (key, vals) else kv)
  else props ++ [(key, vals)]

def setProps (props upd : List (String × List String)) : List (String × List String) :=
  upd.foldl (fun acc kv => setProp acc kv.1 kv.2) props

def deleteProps (props : List (String × List String)) (keys : List String) :
    List (String × List String) :=
  props.filter (fun kv => !(keys.contains kv.1))

/-- One call to `AppTrustClient.patch_application_version` (lines 69-92): the
request body fields `tag`, `properties`, `delete_properties`, each omitted
when the caller passes `None`. The application key is fixed throughout, so it
is not carried. -/
structure PatchCall where
  version : String
  tag : Option String
  properties : Option (List (String × List String))
  delete_properties : Option (List String)
deriving DecidableEq

/-- Registry semantics of one PATCH on one record: if the version matches,
update the tag when given, set the given property keys, then delete the
listed property keys. -/
def applyPatchRecord (r : VersionRecord) (p : PatchCall) : VersionRecord :=
  if r.version == p.version then
    { r with
      tag := p.tag.getD r.tag
      properties :=
        deleteProps (setProps r.properties (p.properties.getD [])) (p.delete_properties.getD []) }
  else r

def applyPatch (s : List VersionRecord) (p : PatchCall) : List VersionRecord :=
  s.map (fun r => applyPatchRecord r p)

/-- Registry state after a sequence of patch calls. -/
def applyPatches (s : List VersionRecord) (ps : List PatchCall) : List VersionRecord :=
  ps.foldl applyPatch s

/-- The whole patch sequence applied to one record. -/
def applyToRecord (r : VersionRecord) (ps : List PatchCall) : VersionRecord :=
  ps.foldl applyPatchRecord r

/-- `get_prod_versions` filter (lines 95-121): truly in prod means stage PROD
and release status RELEASED or TRUSTED_RELEASE (case-normalised). -/
def isTrulyInProd (r : VersionRecord) : Bool :=
  pyUpper r.current_stage == "PROD" &&
    (pyUpper r.release_status == "RELEASED" || pyUpper r.release_status == "TRUSTED_RELEASE")

/-- `get_prod_versions` (lines 95-121), minus the debug annotation field. -/
def prodVersions (s : List VersionRecord) : List VersionRecord :=
  s.filter isTrulyInProd

namespace TaggingService

/-- `backup_tag_then_patch` (lines 173-189): back the current tag up into the
given property and set the new tag; when the current tag is empty no
properties field is sent at all. -/
def backup_tag_then_patch (version backup_prop_key new_tag current_tag : String) : PatchCall :=
  { version := version
    tag := some new_tag
    properties :=
      if current_tag ≠ "" then some [(backup_prop_key, [current_tag])] else none
    delete_properties := none }

/-- Tag restored by `clear_quarantine_tags_for_re_released_versions` (lines
207-214): first element of `original_tag_before_quarantine`, falling back to
the version string when the property is absent or an empty list. -/
def restoreTagQ (r : VersionRecord) : String :=
  match lookupProp r.properties BACKUP_BEFORE_QUARANTINE with
  | some (t :: _) => t
  | some [] => r.version
  | none => r.version

/-- The in-place `version["tag"] = original_tag` update (line 227); local
properties are not updated, exactly as in the source. -/
def recoverRecord (r : VersionRecord) : VersionRecord :=
  if pyStartsWith r.tag "quarantine" then { r with tag := restoreTagQ r } else r

/-- The restore patch issued for one quarantined prod version (lines 217-222). -/
def recoveryPatch? (r : VersionRecord) : Option PatchCall :=
  if pyStartsWith r.tag "quarantine" then
    some { version := r.version, tag := some (restoreTagQ r), properties := none
           delete_properties := some [BACKUP_BEFORE_QUARANTINE] }
  else none

/-- `clear_quarantine_tags_for_re_released_versions` (lines 192-227): issues
one restore patch per quarantined prod version, in list order, and updates
each record's local tag field. -/
def clear_quarantine (prod : List VersionRecord) : List VersionRecord × List PatchCall :=
  (prod.map recoverRecord, prod.filterMap recoveryPatch?)

/-- The candidate filter of `pick_next_latest` (lines 142-152): drop the
excluded version and every tag starting with quarantine or Quarantine. -/
def pickCandidates (prod : List VersionRecord) (exclude_version : String) : List VersionRecord :=
  prod.filter (fun v =>
    !(v.version == exclude_version) &&
      !(pyStartsWith v.tag "quarantine") && !(pyStartsWith v.tag "Quarantine"))

/-- `pick_next_latest` (lines 137-170). -/
def pick_next_latest (prod : List VersionRecord) (exclude_version : String) :
    Option VersionRecord :=
  let candidates := pickCandidates prod exclude_version
  if candidates.isEmpty then none
  else
    match (sort_versions_by_semver_desc (candidates.map (fun v => v.version))).head? with
    | none => none
    | some target => candidates.find? (fun c => c.version == target)

/-- The locally updated prod list after the recovery pass (line 251). -/
def recoveredProd (s : List VersionRecord) : List VersionRecord :=
  (clear_quarantine (prodVersions s)).1

/-- The patches the recovery pass issues (line 251). -/
def recoveryPatches (s : List VersionRecord) : List PatchCall :=
  (clear_quarantine (prodVersions s)).2

/-- `eligible_for_latest` (lines 256-265): prod versions without a quarantine
tag after the recovery pass. -/
def eligibleAfter (s : List VersionRecord) : List VersionRecord :=
  (recoveredProd s).filter (fun v => !(pyStartsWith v.tag "quarantine"))

/-- `sorted_versions` (lines 274-275). -/
def sortedEligible (s : List VersionRecord) : List String :=
  sort_versions_by_semver_desc ((eligibleAfter s).map (fun v => v.version))

/-- `desired_latest` (line 282). -/
def desiredLatest (s : List VersionRecord) : String :=
  (sortedEligible s).headD ""

/-- `current_latest` (lines 286-290): first prod version tagged latest. -/
def currentLatest (s : List VersionRecord) : Option VersionRecord :=
  (recoveredProd s).find? (fun v => v.tag == LATEST_TAG)

/-- Tag restored to the previous latest holder (lines 330-340). When the
backup property is absent or an empty list the initial value survives: the
literal string "version" from line 331, not the version string. -/
def restoreTagL (c : VersionRecord) : String :=
  let t :=
    match lookupProp c.properties BACKUP_BEFORE_LATEST with
    | some (t0 :: _) => t0
    | some [] => "version"
    | none => "version"
  if t = "" || t = LATEST_TAG then c.version else t

/-- The demotion patch for the previous latest holder (lines 342-347). -/
def demotePatch (c : VersionRecord) : PatchCall :=
  { version := c.version, tag := some (restoreTagL c), properties := none
    delete_properties := some [BACKUP_BEFORE_LATEST] }

/-- `enforce_latest_tag_invariants` (lines 230-349) as the list of patch
calls one invocation issues against the snapshot `s`, in order. -/
def enforce (s : List VersionRecord) : List PatchCall :=
  if (prodVersions s).isEmpty then []
  else
    let recP := recoveryPatches s
    if (eligibleAfter s).isEmpty then recP
    else if (sortedEligible s).isEmpty then recP
    else
      let desired := desiredLatest s
      match currentLatest s with
      | some c =>
        if c.version = desired then recP
        else
          match (recoveredProd s).find? (fun v => v.version == desired) with
          | none => recP
          | some dObj =>
            recP ++ [backup_tag_then_patch desired BACKUP_BEFORE_LATEST LATEST_TAG dObj.tag]
              ++ (if c.version ≠ desired then [demotePatch c] else [])
      | none =>
        match (recoveredProd s).find? (fun v => v.version == desired) with
        | none => recP
        | some dObj =>
          recP ++ [backup_tag_then_patch desired BACKUP_BEFORE_LATEST LATEST_TAG dObj.tag]

/-- `handle_rollback_tagging` (lines 352-411) as the list of patch calls one
invocation issues against the snapshot `s`. -/
def handle_rollback_tagging (s : List VersionRecord) (target_version : String) :
    List PatchCall :=
  match (prodVersions s).find? (fun v => v.version == target_version) with
  | none => []
  | some t =>
    let current_tag := t.tag
    let p1 := backup_tag_then_patch target_version BACKUP_BEFORE_QUARANTINE
      ("quarantine-" ++ target_version) current_tag
    if current_tag = LATEST_TAG then
      match pick_next_latest (prodVersions s) target_version with
      | none => [p1]
      | some c => [p1, backup_tag_then_patch c.version BACKUP_BEFORE_LATEST LATEST_TAG c.tag]
    else [p1]

end TaggingService

namespace MainApp

/-- `main.py` `SemVer` (lines 123-236): parsed components plus the original
string; build metadata is validated but not stored, as in the source. -/
structure SemVer where
  major : Nat
  minor : Nat
  patch : Nat
  prerelease : List String
  original : String
deriving DecidableEq

/-- The regex numeral `0|[1-9]\d*`: a non-empty digit string whose head may
be '0' only when it is the sole character. -/
def isCanonNum : List Char → Bool
  | [] => false
  | c :: rest => c.isDigit && rest.all Char.isDigit && (c != '0' || rest.isEmpty)

def isAlphaHyphen (c : Char) : Bool := c.isAlpha || c == '-'

def isAlnumHyphen (c : Char) : Bool := c.isAlphanum || c == '-'

/-- A prerelease identifier: `0|[1-9]\d*|[a-zA-Z-][0-9a-zA-Z-]*`. -/
def isPreIdent (l : List Char) : Bool :=
  isCanonNum l ||
    (match l with
     | [] => false
     | c :: rest => isAlphaHyphen c && rest.all isAlnumHyphen)

/-- A build identifier: `[0-9a-zA-Z-]+`. -/
def isBuildIdent (l : List Char) : Bool :=
  !l.isEmpty && l.all isAlnumHyphen

/-- Split at the first occurrence of `sep`, if any. -/
def splitFirst (sep : Char) : List Char → List Char × Option (List Char)
  | [] => ([], none)
  | c :: rest =>
    if c = sep then ([], some rest)
    else
      let p := splitFirst sep rest
      (c :: p.1, p.2)

/-- Drop a single optional leading 'v' (the regex's `v?`). -/
def vstrip (l : List Char) : List Char :=
  if l.head? = some 'v' then l.tail else l

/-- The optional build-metadata suffix: absent, or dot-separated
`[0-9a-zA-Z-]+` identifiers. -/
def checkBuild? : Option (List Char) → Bool
  | none => true
  | some b => (splitDots b).all isBuildIdent

/-- The optional prerelease suffix: absent gives the empty tuple, otherwise
every dot-separated identifier must match the regex alternative. -/
def parsePre? : Option (List Char) → Option (List String)
  | none => some []
  | some p =>
    if (splitDots p).all isPreIdent then
      some ((splitDots p).map (fun l => String.mk l))
    else none

/-- The mandatory `major.minor.patch` core of canonical numerals. -/
def parseCore? (core : List Char) : Option (Nat × Nat × Nat) :=
  match splitDots core with
  | [a, b, c] =>
    if isCanonNum a && isCanonNum b && isCanonNum c then
      some (digitsVal a, digitsVal b, digitsVal c)
    else none
  | _ => none

/-- `SemVer.parse` (lines 185-236): match against `SEMVER_RE` — optional
whitespace and `v` prefix, canonical `major.minor.patch`, optional
`-prerelease` (dot-separated identifiers), optional `+build`. The version
core is digits-only, so the first `-` starts the prerelease and the first
`+` starts the build metadata. -/
def SemVer.parse (version : String) : Option SemVer :=
  if checkBuild? (splitFirst '+' (vstrip (stripWS version.toList))).2 then
    match parseCore? (splitFirst '-' (splitFirst '+' (vstrip (stripWS version.toList))).1).1,
      parsePre? (splitFirst '-' (splitFirst '+' (vstrip (stripWS version.toList))).1).2 with
    | some (a, b, c), some pre => some ⟨a, b, c, pre, version⟩
    | _, _ => none
  else none

/-- Python `str.isdigit()` on the ASCII identifiers compared here. -/
def pyIsDigit (s : String) : Bool :=
  !s.isEmpty && s.toList.all Char.isDigit

/-- The prerelease identifier loop plus final length comparison of
`compare_semver` (lines 291-316): pairwise left-to-right, numeric pairs as
integers, numeric below non-numeric, otherwise lexical; an exhausted prefix
ranks below the longer list. -/
def comparePreIds : List String → List String → Int
  | [], [] => 0
  | [], _ :: _ => -1
  | _ :: _, [] => 1
  | a :: as, b :: bs =>
    if a = b then comparePreIds as bs
    else if pyIsDigit a && pyIsDigit b then
      let ai := digitsVal a.toList
      let bi := digitsVal b.toList
      if ai < bi then -1 else if bi < ai then 1 else comparePreIds as bs
    else if pyIsDigit a && !(pyIsDigit b) then -1
    else if !(pyIsDigit a) && pyIsDigit b then 1
    else if a < b then -1 else 1

/-- `compare_semver` (lines 239-318). -/
def compare_semver (a b : SemVer) : Int :=
  if a.major ≠ b.major then (if a.major < b.major then -1 else 1)
  else if a.minor ≠ b.minor then (if a.minor < b.minor then -1 else 1)
  else if a.patch ≠ b.patch then (if a.patch < b.patch then -1 else 1)
  else if a.prerelease.isEmpty && !b.prerelease.isEmpty then 1
  else if !a.prerelease.isEmpty && b.prerelease.isEmpty then -1
  else comparePreIds a.prerelease b.prerelease

/-- Descending order on parsed pairs used by the main-module sorter. -/
def semverGE (a b : SemVer × String) : Prop := 0 ≤ compare_semver a.1 b.1

instance : DecidableRel semverGE := fun a b => by
  unfold semverGE; infer_instance

/-- `main.py` `sort_versions_by_semver_desc` (lines 321-363): parse, keep
only valid strings, stable-sort descending by `compare_semver`, return the
original strings. -/
def sort_versions_by_semver_desc (version_strings : List String) : List String :=
  let parsed := version_strings.filterMap (fun v => (SemVer.parse v).map (fun sv => (sv, v)))
  (List.insertionSort semverGE parsed).map (fun p => p.2)

end MainApp

/-- A canonical `MAJOR.MINOR.PATCH` numeral triple: exactly three
dot-separated parts, each matching the regex numeral `0|[1-9]\d*`. On such
strings both comparators are defined and can be compared. -/
def isCanonicalTriple (s : String) : Bool :=
  match splitDots s.toList with
  | [a, b, c] => MainApp.isCanonNum a && MainApp.isCanonNum b && MainApp.isCanonNum c
  | _ => false

/-- Rejoin dot-split parts (left inverse of `splitDots`). -/
def joinDots : List (List Char) → List Char
  | [] => []
  | [p] => p
  | p :: ps => p ++ '.' :: joinDots ps

/-- The version strings of a record list, in order. -/
def versionsOf (l : List VersionRecord) : List String :=
  l.map (fun r => r.version)

/-- The spec's eligible set of a snapshot (§3): truly-in-prod versions whose
tag does not begin with "quarantine". -/
def eligibleOf (s : List VersionRecord) : List VersionRecord :=
  (prodVersions s).filter (fun v => !(pyStartsWith v.tag "quarantine"))

end BookVerse

namespace BookVerse

namespace TaggingService

theorem keyLT_irrefl : ∀ l : List Int, keyLT l l = false := by
  intro l
  induction l with
  | nil => rfl
  | cons a as ih => simp [keyLT, ih]

theorem keyLT_trans : ∀ {l1 l2 l3 : List Int},
    keyLT l1 l2 = true → keyLT l2 l3 = true → keyLT l1 l3 = true := by
  intro l1
  induction l1 with
  | nil =>
    intro l2 l3 h12 h23
    cases l2 with
    | nil => simp [keyLT] at h12
    | cons b bs =>
      cases l3 with
      | nil => simp [keyLT] at h23
      | cons c cs => simp [keyLT]
  | cons a as ih =>
    intro l2 l3 h12 h23
    cases l2 with
    | nil => simp [keyLT] at h12
    | cons b bs =>
      cases l3 with
      | nil => simp [keyLT] at h23
      | cons c cs =>
        simp only [keyLT] at h12 h23 ⊢
        split at h12
        · split at h23
          · have : a < c := by omega
            simp [this]
          · split at h23
            · rename_i hab hbc
              subst hbc
              simp_all
            · exact absurd h23 (by simp)
        · split at h12
          · rename_i hab
            subst hab
            split at h23
            · simp [*]
            · split at h23
              · rename_i hbc
                subst hbc
                simp only [lt_irrefl, if_false, if_pos rfl] at *
                exact ih h12 h23
              · exact absurd h23 (by simp)
          · exact absurd h12 (by simp)

theorem keyLT_trichotomy : ∀ l1 l2 : List Int,
    keyLT l1 l2 = true ∨ l1 = l2 ∨ keyLT l2 l1 = true := by
  intro l1
  induction l1 with
  | nil =>
    intro l2
    cases l2 with
    | nil => right; left; rfl
    | cons b bs => left; rfl
  | cons a as ih =>
    intro l2
    cases l2 with
    | nil => right; right; rfl
    | cons b bs =>
      rcases lt_trichotomy a b with hab | hab | hab
      · left; simp [keyLT, hab]
      · subst hab
        rcases ih bs with h | h | h
        · left; simp [keyLT, h]
        · right; left; rw [h]
        · right; right; simp [keyLT, h]
      · right; right; simp [keyLT, hab]

theorem keyLT_asymm {l1 l2 : List Int} (h : keyLT l1 l2 = true) : keyLT l2 l1 = false := by
  by_contra hc
  have h2 : keyLT l2 l1 = true := by
    cases hq : keyLT l2 l1 with
    | false => exact absurd hq hc
    | true => rfl
  have := keyLT_trans h h2
  rw [keyLT_irrefl] at this
  exact absurd this (by simp)

instance : IsTotal String keyGE := by
  constructor
  intro a b
  unfold keyGE
  rcases keyLT_trichotomy (semver_key a) (semver_key b) with h | h | h
  · right; exact keyLT_asymm h
  · left; rw [h, keyLT_irrefl]
  · left; exact keyLT_asymm h

instance : IsTrans String keyGE := by
  constructor
  intro a b c hab hbc
  unfold keyGE at *
  cases hac : keyLT (semver_key a) (semver_key c) with
  | false => rfl
  | true =>
    rcases keyLT_trichotomy (semver_key a) (semver_key b) with h | h | h
    · rw [hab] at h; exact absurd h (by simp)
    · rw [h] at hac; rw [hac] at hbc; exact absurd hbc (by simp)
    · have := keyLT_trans h hac
      rw [hbc] at this
      exact absurd this (by simp)

/-- The head of the descending-sorted list is maximal for the naive key. -/
theorem sort_head_max (l : List String) (hne : l ≠ []) :
    ∃ v t, sort_versions_by_semver_desc l = v :: t ∧ v ∈ l ∧
      ∀ u ∈ l, keyLT (semver_key v) (semver_key u) = false := by
  have hperm := List.perm_insertionSort keyGE l
  have hsorted := List.sorted_insertionSort keyGE l
  unfold sort_versions_by_semver_desc
  cases hs : List.insertionSort keyGE l with
  | nil =>
    rw [hs] at hperm
    have := hperm.length_eq
    simp at this
    exact absurd (List.length_eq_zero.mp this.symm) hne
  | cons v t =>
    refine ⟨v, t, rfl, ?_, ?_⟩
    · have : v ∈ List.insertionSort keyGE l := by rw [hs]; exact List.mem_cons_self v t
      exact hperm.mem_iff.mp this
    · intro u hu
      have hu' : u ∈ List.insertionSort keyGE l := hperm.mem_iff.mpr hu
      rw [hs] at hu' hsorted
      rcases List.mem_cons.mp hu' with h | h
      · subst h
        exact keyLT_irrefl _
      · exact (List.rel_of_sorted_cons hsorted) u h

/-- The sorted list is a permutation: nothing is dropped or added. -/
theorem sort_perm (l : List String) : (sort_versions_by_semver_desc l).Perm l :=
  List.perm_insertionSort keyGE l

end TaggingService

theorem applyPatches_eq_map (ps : List PatchCall) :
    ∀ s : List VersionRecord, applyPatches s ps = s.map (fun r => applyToRecord r ps) := by
  induction ps with
  | nil =>
    intro s
    simp [applyPatches, applyToRecord]
  | cons p ps ih =>
    intro s
    show applyPatches (applyPatch s p) ps = _
    rw [ih (applyPatch s p)]
    unfold applyPatch
    rw [List.map_map]
    rfl

theorem applyPatchRecord_version (r : VersionRecord) (p : PatchCall) :
    (applyPatchRecord r p).version = r.version := by
  unfold applyPatchRecord
  split <;> rfl

theorem applyPatchRecord_stage (r : VersionRecord) (p : PatchCall) :
    (applyPatchRecord r p).current_stage = r.current_stage := by
  unfold applyPatchRecord
  split <;> rfl

theorem applyPatchRecord_status (r : VersionRecord) (p : PatchCall) :
    (applyPatchRecord r p).release_status = r.release_status := by
  unfold applyPatchRecord
  split <;> rfl

theorem applyToRecord_version (ps : List PatchCall) :
    ∀ r : VersionRecord, (applyToRecord r ps).version = r.version := by
  induction ps with
  | nil => intro r; rfl
  | cons p ps ih =>
    intro r
    show (applyToRecord (applyPatchRecord r p) ps).version = _
    rw [ih, applyPatchRecord_version]

theorem applyToRecord_stage (ps : List PatchCall) :
    ∀ r : VersionRecord, (applyToRecord r ps).current_stage = r.current_stage := by
  induction ps with
  | nil => intro r; rfl
  | cons p ps ih =>
    intro r
    show (applyToRecord (applyPatchRecord r p) ps).current_stage = _
    rw [ih, applyPatchRecord_stage]

theorem applyToRecord_status (ps : List PatchCall) :
    ∀ r : VersionRecord, (applyToRecord r ps).release_status = r.release_status := by
  induction ps with
  | nil => intro r; rfl
  | cons p ps ih =>
    intro r
    show (applyToRecord (applyPatchRecord r p) ps).release_status = _
    rw [ih, applyPatchRecord_status]

theorem isTrulyInProd_applyToRecord (ps : List PatchCall) (r : VersionRecord) :
    isTrulyInProd (applyToRecord r ps) = isTrulyInProd r := by
  unfold isTrulyInProd
  rw [applyToRecord_stage, applyToRecord_status]

/-- Patching commutes with the prod filter: no patch changes membership. -/
theorem prodVersions_applyPatches (s : List VersionRecord) (ps : List PatchCall) :
    prodVersions (applyPatches s ps) = (prodVersions s).map (fun r => applyToRecord r ps) := by
  rw [applyPatches_eq_map]
  unfold prodVersions
  rw [List.filter_map]
  congr 1
  apply List.filter_congr
  intro r _
  exact isTrulyInProd_applyToRecord ps r

theorem applyPatchRecord_of_ne {r : VersionRecord} {p : PatchCall}
    (h : p.version ≠ r.version) : applyPatchRecord r p = r := by
  unfold applyPatchRecord
  rw [if_neg]
  simp
  exact fun he => absurd he.symm h

theorem applyToRecord_of_all_ne {ps : List PatchCall} :
    ∀ {r : VersionRecord}, (∀ p ∈ ps, p.version ≠ r.version) → applyToRecord r ps = r := by
  induction ps with
  | nil => intro r _; rfl
  | cons p ps ih =>
    intro r h
    show applyToRecord (applyPatchRecord r p) ps = r
    rw [applyPatchRecord_of_ne (h p (List.mem_cons_self p ps))]
    exact ih (fun q hq => h q (List.mem_cons_of_mem p hq))

theorem applyToRecord_append (r : VersionRecord) (ps qs : List PatchCall) :
    applyToRecord r (ps ++ qs) = applyToRecord (applyToRecord r ps) qs :=
  List.foldl_append _ _ _ _

theorem applyPatchRecord_tag_of_eq {r : VersionRecord} {p : PatchCall} {t : String}
    (h : r.version = p.version) (ht : p.tag = some t) : (applyPatchRecord r p).tag = t := by
  unfold applyPatchRecord
  rw [if_pos (by simp [h]), ht]
  rfl

namespace TaggingService

theorem recoverRecord_version (r : VersionRecord) : (recoverRecord r).version = r.version := by
  unfold recoverRecord
  split <;> rfl

theorem recoverRecord_properties (r : VersionRecord) :
    (recoverRecord r).properties = r.properties := by
  unfold recoverRecord
  split <;> rfl

theorem restoreTagL_recoverRecord (r : VersionRecord) :
    restoreTagL (recoverRecord r) = restoreTagL r := by
  unfold restoreTagL
  rw [recoverRecord_properties, recoverRecord_version]

theorem restoreTagQ_recoverRecord (r : VersionRecord) :
    restoreTagQ (recoverRecord r) = restoreTagQ r := by
  unfold restoreTagQ
  rw [recoverRecord_properties, recoverRecord_version]

theorem recoveryPatch?_version {r : VersionRecord} {p : PatchCall}
    (h : recoveryPatch? r = some p) : p.version = r.version := by
  unfold recoveryPatch? at h
  split at h
  · cases h; rfl
  · cases h

theorem recoveredProd_eq (s : List VersionRecord) :
    recoveredProd s = (prodVersions s).map recoverRecord := rfl

theorem recoveryPatches_eq (s : List VersionRecord) :
    recoveryPatches s = (prodVersions s).filterMap recoveryPatch? := rfl

theorem versionsOf_recoveredProd (s : List VersionRecord) :
    versionsOf (recoveredProd s) = versionsOf (prodVersions s) := by
  rw [recoveredProd_eq]
  unfold versionsOf
  rw [List.map_map]
  apply List.map_congr_left
  intro r _
  exact recoverRecord_version r

theorem patch_version_mem {l : List VersionRecord} {p : PatchCall}
    (h : p ∈ l.filterMap recoveryPatch?) : p.version ∈ versionsOf l := by
  rcases List.mem_filterMap.mp h with ⟨r, hr, hp⟩
  rw [recoveryPatch?_version hp]
  exact List.mem_map_of_mem _ hr

/-- The net effect of the recovery pass on one prod record, given distinct
prod version strings: a quarantined record gets the restored tag and loses
the quarantine backup property; others are untouched. -/
theorem applyToRecord_recoveryPatches {s : List VersionRecord}
    (hnd : (versionsOf (prodVersions s)).Nodup)
    {r : VersionRecord} (hr : r ∈ prodVersions s) :
    applyToRecord r (recoveryPatches s) =
      if pyStartsWith r.tag "quarantine" then
        { r with tag := restoreTagQ r
                 properties := deleteProps r.properties [BACKUP_BEFORE_QUARANTINE] }
      else r := by
  rcases List.append_of_mem hr with ⟨l1, l2, hsplit⟩
  have hspl2 : versionsOf (prodVersions s) = versionsOf l1 ++ r.version :: versionsOf l2 := by
    rw [hsplit]; simp [versionsOf]
  rw [hspl2] at hnd
  have hnm : ¬ r.version ∈ versionsOf l1 ++ versionsOf l2 :=
    (List.nodup_cons.mp (List.nodup_middle.mp hnd)).1
  rw [recoveryPatches_eq, hsplit, List.filterMap_append, List.filterMap_cons]
  have h1 : ∀ p ∈ l1.filterMap recoveryPatch?, p.version ≠ r.version := by
    intro p hp he
    exact hnm (List.mem_append.mpr (Or.inl (he ▸ patch_version_mem hp)))
  have h2 : ∀ p ∈ l2.filterMap recoveryPatch?, p.version ≠ r.version := by
    intro p hp he
    exact hnm (List.mem_append.mpr (Or.inr (he ▸ patch_version_mem hp)))
  cases hq : recoveryPatch? r with
  | none =>
    rw [applyToRecord_append, applyToRecord_of_all_ne h1, applyToRecord_of_all_ne h2]
    unfold recoveryPatch? at hq
    split at hq
    · cases hq
    · rename_i hcond
      rw [if_neg (by simpa using hcond)]
  | some p =>
    unfold recoveryPatch? at hq
    split at hq
    · rename_i hcond
      rw [if_pos hcond]
      cases hq
      rw [applyToRecord_append, applyToRecord_of_all_ne h1]
      have hrec : applyPatchRecord r
          { version := r.version, tag := some (restoreTagQ r), properties := none
            delete_properties := some [BACKUP_BEFORE_QUARANTINE] } =
          { r with tag := restoreTagQ r
                   properties := deleteProps r.properties [BACKUP_BEFORE_QUARANTINE] } := by
        simp [applyPatchRecord, setProps]
      show applyToRecord (applyPatchRecord r _) (l2.filterMap recoveryPatch?) = _
      rw [hrec]
      exact applyToRecord_of_all_ne h2
    · cases hq

theorem eq_of_countP_le_one {α : Type} {l : List α} {p : α → Bool} (h : l.countP p ≤ 1)
    {u v : α} (hu : u ∈ l) (hv : v ∈ l) (hpu : p u = true) (hpv : p v = true) : u = v := by
  have hu' : u ∈ l.filter p := List.mem_filter.mpr ⟨hu, hpu⟩
  have hv' : v ∈ l.filter p := List.mem_filter.mpr ⟨hv, hpv⟩
  have hlen : (l.filter p).length ≤ 1 := by
    rw [← List.countP_eq_length_filter]; exact h
  cases hf : l.filter p with
  | nil => rw [hf] at hu'; simp at hu'
  | cons x t =>
    cases t with
    | nil =>
      rw [hf] at hu' hv'
      simp at hu' hv'
      rw [hu', hv']
    | cons y t2 => rw [hf] at hlen; simp at hlen

theorem enforce_of_prod_empty {s : List VersionRecord}
    (h : (prodVersions s).isEmpty = true) : enforce s = [] := by
  unfold enforce
  rw [if_pos h]

theorem enforce_of_current_eq {s : List VersionRecord} {c : VersionRecord}
    (h1 : (prodVersions s).isEmpty = false) (h2 : (eligibleAfter s).isEmpty = false)
    (h3 : (sortedEligible s).isEmpty = false) (hc : currentLatest s = some c)
    (he : c.version = desiredLatest s) :
    enforce s = recoveryPatches s := by
  unfold enforce
  rw [h1, h2, h3, hc]
  simp [he]

theorem enforce_of_main_some {s : List VersionRecord} {c dObj : VersionRecord}
    (h1 : (prodVersions s).isEmpty = false) (h2 : (eligibleAfter s).isEmpty = false)
    (h3 : (sortedEligible s).isEmpty = false) (hc : currentLatest s = some c)
    (hne : c.version ≠ desiredLatest s)
    (hd : (recoveredProd s).find? (fun v => v.version == desiredLatest s) = some dObj) :
    enforce s = recoveryPatches s ++
      [backup_tag_then_patch (desiredLatest s) BACKUP_BEFORE_LATEST LATEST_TAG dObj.tag]
      ++ [demotePatch c] := by
  unfold enforce
  rw [h1, h2, h3, hc]
  simp [hne, hd]

theorem enforce_of_main_none {s : List VersionRecord} {dObj : VersionRecord}
    (h1 : (prodVersions s).isEmpty = false) (h2 : (eligibleAfter s).isEmpty = false)
    (h3 : (sortedEligible s).isEmpty = false) (hc : currentLatest s = none)
    (hd : (recoveredProd s).find? (fun v => v.version == desiredLatest s) = some dObj) :
    enforce s = recoveryPatches s ++
      [backup_tag_then_patch (desiredLatest s) BACKUP_BEFORE_LATEST LATEST_TAG dObj.tag] := by
  unfold enforce
  rw [h1, h2, h3, hc]
  simp [hd]

theorem eligibleAfter_nonempty {s : List VersionRecord} (h : eligibleOf s ≠ []) :
    (eligibleAfter s).isEmpty = false := by
  rcases List.exists_mem_of_ne_nil _ h with ⟨r0, hr0⟩
  have hr0' := List.mem_filter.mp hr0
  have hq : pyStartsWith r0.tag "quarantine" = false := by
    rcases hr0' with ⟨_, h2⟩
    simpa using h2
  have hrec : recoverRecord r0 = r0 := by
    unfold recoverRecord
    rw [hq]
    rfl
  have hmem : r0 ∈ eligibleAfter s := by
    apply List.mem_filter.mpr
    constructor
    · rw [recoveredProd_eq]
      have := List.mem_map_of_mem recoverRecord hr0'.1
      rwa [hrec] at this
    · simp [hq]
  cases he : eligibleAfter s with
  | nil => rw [he] at hmem; simp at hmem
  | cons a t => rfl

theorem sortedEligible_nonempty {s : List VersionRecord}
    (h : (eligibleAfter s).isEmpty = false) : (sortedEligible s).isEmpty = false := by
  have hperm := sort_perm ((eligibleAfter s).map (fun v => v.version))
  have hlen := hperm.length_eq
  unfold sortedEligible
  cases hs : sort_versions_by_semver_desc ((eligibleAfter s).map (fun v => v.version)) with
  | nil =>
    rw [hs] at hlen
    simp at hlen
    have : eligibleAfter s = [] := List.length_eq_zero.mp hlen.symm
    rw [this] at h
    simp at h
  | cons a t => rfl

theorem currentLatest_spec {s : List VersionRecord} {c : VersionRecord}
    (hc : currentLatest s = some c) : c ∈ recoveredProd s ∧ c.tag = LATEST_TAG := by
  unfold currentLatest at hc
  refine ⟨List.mem_of_find?_eq_some hc, ?_⟩
  have := List.find?_some hc
  simpa using this

theorem currentLatest_none {s : List VersionRecord} (hc : currentLatest s = none) :
    ∀ u ∈ recoveredProd s, u.tag ≠ LATEST_TAG := by
  intro u hu
  have := List.find?_eq_none.mp hc u hu
  simpa using this

theorem latest_unique {s : List VersionRecord}
    (hcnt : (recoveredProd s).countP (fun v => v.tag == LATEST_TAG) ≤ 1)
    {u v : VersionRecord} (hu : u ∈ recoveredProd s) (hv : v ∈ recoveredProd s)
    (hut : u.tag = LATEST_TAG) (hvt : v.tag = LATEST_TAG) : u = v :=
  eq_of_countP_le_one hcnt hu hv (by simp [hut]) (by simp [hvt])

theorem eq_of_version_eq {l : List VersionRecord} (hnd : (versionsOf l).Nodup)
    {u v : VersionRecord} (hu : u ∈ l) (hv : v ∈ l) (he : u.version = v.version) : u = v :=
  List.inj_on_of_nodup_map hnd hu hv he

theorem recovered_nodup {s : List VersionRecord}
    (hnd : (versionsOf (prodVersions s)).Nodup) : (versionsOf (recoveredProd s)).Nodup := by
  rw [versionsOf_recoveredProd]; exact hnd

theorem tag_applyToRecord_recovery {s : List VersionRecord}
    (hnd : (versionsOf (prodVersions s)).Nodup)
    {r : VersionRecord} (hr : r ∈ prodVersions s) :
    (applyToRecord r (recoveryPatches s)).tag = (recoverRecord r).tag := by
  rw [applyToRecord_recoveryPatches hnd hr]
  unfold recoverRecord
  cases hq : pyStartsWith r.tag "quarantine" with
  | false => simp [hq]
  | true => simp [hq]

theorem restoreTagL_ne_latest {c : VersionRecord} (h : c.version ≠ LATEST_TAG) :
    restoreTagL c ≠ LATEST_TAG := by
  unfold restoreTagL
  cases hl : lookupProp c.properties BACKUP_BEFORE_LATEST with
  | none =>
    simp only []
    split
    · exact h
    · decide
  | some l =>
    cases l with
    | nil =>
      simp only []
      split
      · exact h
      · decide
    | cons t0 rest =>
      simp only []
      split
      · exact h
      · rename_i hcond
        intro hcon
        rw [hcon] at hcond
        simp [LATEST_TAG] at hcond

theorem prod_nonempty_of_eligible {s : List VersionRecord} (h : eligibleOf s ≠ []) :
    (prodVersions s).isEmpty = false := by
  rcases List.exists_mem_of_ne_nil _ h with ⟨r0, hr0⟩
  have : r0 ∈ prodVersions s := (List.mem_filter.mp hr0).1
  cases hp : prodVersions s with
  | nil => rw [hp] at this; simp at this
  | cons a t => rfl

/-- The engine's elected version: a member of the post-recovery eligible set,
maximal for the naive comparator key. -/
theorem desired_spec {s : List VersionRecord} (h : (eligibleAfter s).isEmpty = false) :
    desiredLatest s ∈ versionsOf (eligibleAfter s) ∧
      ∀ u ∈ versionsOf (eligibleAfter s),
        keyLT (semver_key (desiredLatest s)) (semver_key u) = false := by
  have hne : (eligibleAfter s).map (fun v => v.version) ≠ [] := by
    intro hcon
    rw [List.map_eq_nil_iff] at hcon
    rw [hcon] at h
    simp at h
  rcases sort_head_max _ hne with ⟨v, t, hs, hv, hmax⟩
  have hd : desiredLatest s = v := by
    unfold desiredLatest sortedEligible
    rw [hs]
    rfl
  rw [hd]
  exact ⟨hv, hmax⟩

theorem find_desired {s : List VersionRecord} (h2 : (eligibleAfter s).isEmpty = false) :
    ∃ dObj, (recoveredProd s).find? (fun v => v.version == desiredLatest s) = some dObj := by
  have hspec := desired_spec h2
  rcases List.mem_map.mp hspec.1 with ⟨e, he, heq⟩
  have he' : e ∈ recoveredProd s := List.mem_of_mem_filter he
  have hsome : ((recoveredProd s).find? (fun v => v.version == desiredLatest s)).isSome :=
    List.find?_isSome.mpr ⟨e, he', by simp [heq]⟩
  exact Option.isSome_iff_exists.mp hsome

theorem recoverRecord_eq_self {r : VersionRecord}
    (h : pyStartsWith r.tag "quarantine" = false) : recoverRecord r = r := by
  unfold recoverRecord
  rw [h]
  rfl

theorem recoverRecord_tag_not_quarantine {r : VersionRecord}
    (h : pyStartsWith (restoreTagQ r) "quarantine" = false) :
    pyStartsWith (recoverRecord r).tag "quarantine" = false := by
  unfold recoverRecord
  cases hq : pyStartsWith r.tag "quarantine" with
  | false => simpa using hq
  | true => simpa using h

theorem recoveredProd_eq_prod {s : List VersionRecord}
    (hq : ∀ r ∈ prodVersions s, pyStartsWith r.tag "quarantine" = false) :
    recoveredProd s = prodVersions s := by
  rw [recoveredProd_eq]
  rw [List.map_congr_left (fun r hr => recoverRecord_eq_self (hq r hr))]
  exact List.map_id _

theorem recoveryPatches_nil {s : List VersionRecord}
    (hq : ∀ r ∈ prodVersions s, pyStartsWith r.tag "quarantine" = false) :
    recoveryPatches s = [] := by
  rw [recoveryPatches_eq]
  apply List.filterMap_eq_nil_iff.mpr
  intro r hr
  unfold recoveryPatch?
  rw [hq r hr]
  rfl

theorem eligibleAfter_eq_recovered {s : List VersionRecord}
    (hq : ∀ r ∈ prodVersions s, pyStartsWith (restoreTagQ r) "quarantine" = false) :
    eligibleAfter s = recoveredProd s := by
  unfold eligibleAfter
  apply List.filter_eq_self.mpr
  intro u hu
  rcases List.mem_map.mp hu with ⟨r, hr, hru⟩
  rw [← hru]
  simp [recoverRecord_tag_not_quarantine (hq r hr)]

theorem applyToRecord_singleton (r : VersionRecord) (p : PatchCall) :
    applyToRecord r [p] = applyPatchRecord r p := rfl

/-- Case description of the final tag of each prod record after one
enforcement run: the elected version ends tagged latest; every other prod
record ends with a non-latest tag, which is its recovery-pass tag unless it
was the demoted previous latest holder, whose version then belongs to the
eligible set. -/
theorem enforce_tag_cases {s : List VersionRecord}
    (hnd : (versionsOf (prodVersions s)).Nodup)
    (hnl : ∀ r ∈ prodVersions s, r.version ≠ LATEST_TAG)
    (hcnt : (recoveredProd s).countP (fun v => v.tag == LATEST_TAG) ≤ 1)
    (h1 : (prodVersions s).isEmpty = false)
    (h2 : (eligibleAfter s).isEmpty = false) :
    ∀ r ∈ prodVersions s,
      (r.version = desiredLatest s → (applyToRecord r (enforce s)).tag = LATEST_TAG) ∧
      (r.version ≠ desiredLatest s →
        (applyToRecord r (enforce s)).tag ≠ LATEST_TAG ∧
        ((applyToRecord r (enforce s)).tag = (recoverRecord r).tag ∨
          (r.version ∈ versionsOf (eligibleAfter s) ∧
            (applyToRecord r (enforce s)).tag = restoreTagL r))) := by
  intro r hr
  have h3 := sortedEligible_nonempty h2
  obtain ⟨dObj, hd⟩ := find_desired h2
  have hrecnd := recovered_nodup hnd
  have hrm : recoverRecord r ∈ recoveredProd s := by
    rw [recoveredProd_eq]; exact List.mem_map_of_mem _ hr
  cases hcl : currentLatest s with
  | none =>
    rw [enforce_of_main_none h1 h2 h3 hcl hd]
    have hnolat := currentLatest_none hcl
    constructor
    · intro hv
      rw [applyToRecord_append, applyToRecord_singleton]
      exact applyPatchRecord_tag_of_eq (by rw [applyToRecord_version, hv]; rfl) rfl
    · intro hv
      have hskip : applyPatchRecord (applyToRecord r (recoveryPatches s))
          (backup_tag_then_patch (desiredLatest s) BACKUP_BEFORE_LATEST LATEST_TAG dObj.tag)
          = applyToRecord r (recoveryPatches s) := by
        apply applyPatchRecord_of_ne
        show desiredLatest s ≠ _
        rw [applyToRecord_version]
        exact fun he => hv he.symm
      rw [applyToRecord_append, applyToRecord_singleton, hskip,
        tag_applyToRecord_recovery hnd hr]
      exact ⟨hnolat _ hrm, Or.inl rfl⟩
  | some c =>
    have hcspec := currentLatest_spec hcl
    by_cases hce : c.version = desiredLatest s
    · rw [enforce_of_current_eq h1 h2 h3 hcl hce]
      constructor
      · intro hv
        rw [tag_applyToRecord_recovery hnd hr]
        have hveq : (recoverRecord r).version = c.version := by
          rw [recoverRecord_version, hv, ← hce]
        rw [eq_of_version_eq hrecnd hrm hcspec.1 hveq]
        exact hcspec.2
      · intro hv
        rw [tag_applyToRecord_recovery hnd hr]
        refine ⟨?_, Or.inl rfl⟩
        intro hlat
        have heq := latest_unique hcnt hrm hcspec.1 hlat hcspec.2
        apply hv
        rw [← recoverRecord_version r, heq, hce]
    · rw [enforce_of_main_some h1 h2 h3 hcl hce hd]
      constructor
      · intro hv
        rw [applyToRecord_append, applyToRecord_append, applyToRecord_singleton,
          applyToRecord_singleton]
        have hmid : (applyPatchRecord (applyToRecord r (recoveryPatches s))
            (backup_tag_then_patch (desiredLatest s) BACKUP_BEFORE_LATEST LATEST_TAG dObj.tag)).tag
            = LATEST_TAG :=
          applyPatchRecord_tag_of_eq (by rw [applyToRecord_version, hv]; rfl) rfl
        rw [applyPatchRecord_of_ne ?hne]
        · exact hmid
        case hne =>
          show c.version ≠ _
          rw [applyPatchRecord_version, applyToRecord_version, hv]
          exact hce
      · intro hv
        by_cases hvc : r.version = c.version
        · obtain ⟨rc, hrc, hrceq⟩ := List.mem_map.mp
            (by rw [recoveredProd_eq] at hcspec; exact hcspec.1)
          have hrcr : rc = r := by
            apply eq_of_version_eq hnd hrc hr
            rw [← recoverRecord_version rc, hrceq, ← hvc]
          have hcr : c = recoverRecord r := by rw [← hrceq, hrcr]
          rw [applyToRecord_append, applyToRecord_append, applyToRecord_singleton,
            applyToRecord_singleton]
          have hski : applyPatchRecord (applyToRecord r (recoveryPatches s))
              (backup_tag_then_patch (desiredLatest s) BACKUP_BEFORE_LATEST LATEST_TAG dObj.tag)
              = applyToRecord r (recoveryPatches s) := by
            apply applyPatchRecord_of_ne
            show desiredLatest s ≠ _
            rw [applyToRecord_version]
            exact fun he => hv he.symm
          rw [hski]
          have htag : (applyPatchRecord (applyToRecord r (recoveryPatches s))
              (demotePatch c)).tag = restoreTagL c :=
            applyPatchRecord_tag_of_eq (by rw [applyToRecord_version, hvc]; rfl) rfl
          rw [htag, hcr, restoreTagL_recoverRecord]
          refine ⟨restoreTagL_ne_latest (hnl r hr), Or.inr ⟨?_, rfl⟩⟩
          have hcel : c ∈ eligibleAfter s := by
            apply List.mem_filter.mpr
            refine ⟨hcspec.1, ?_⟩
            rw [hcspec.2]
            decide
          rw [hvc]
          exact List.mem_map_of_mem _ hcel
        · rw [applyToRecord_append, applyToRecord_append, applyToRecord_singleton,
            applyToRecord_singleton]
          have hski1 : applyPatchRecord (applyToRecord r (recoveryPatches s))
              (backup_tag_then_patch (desiredLatest s) BACKUP_BEFORE_LATEST LATEST_TAG dObj.tag)
              = applyToRecord r (recoveryPatches s) := by
            apply applyPatchRecord_of_ne
            show desiredLatest s ≠ _
            rw [applyToRecord_version]
            exact fun he => hv he.symm
          rw [hski1]
          have hski2 : applyPatchRecord (applyToRecord r (recoveryPatches s)) (demotePatch c)
              = applyToRecord r (recoveryPatches s) := by
            apply applyPatchRecord_of_ne
            show c.version ≠ _
            rw [applyToRecord_version]
            exact fun he => hvc he.symm
          rw [hski2, tag_applyToRecord_recovery hnd hr]
          refine ⟨?_, Or.inl rfl⟩
          intro hlat
          have heq := latest_unique hcnt hrm hcspec.1 hlat hcspec.2
          apply hvc
          rw [← recoverRecord_version r, heq]

/-- C1 (amended): for every snapshot whose truly-in-prod version strings are
pairwise distinct and distinct from "latest", in which at most one version
carries tag "latest" after the recovery pass, and whose eligible set is
non-empty, after `enforce_latest_tag_invariants` completes exactly one
eligible version carries tag "latest" (unique by version string), and that
version is maximal in the final eligible set under the engine's
dotted-integer ordering key. -/
theorem claim1_amended (s : List VersionRecord)
    (hnd : (versionsOf (prodVersions s)).Nodup)
    (hnl : ∀ r ∈ prodVersions s, r.version ≠ LATEST_TAG)
    (hcnt : (recoveredProd s).countP (fun v => v.tag == LATEST_TAG) ≤ 1)
    (hel : eligibleOf s ≠ []) :
    ∃ w ∈ eligibleOf (applyPatches s (enforce s)),
      w.tag = LATEST_TAG ∧
      (∀ u ∈ eligibleOf (applyPatches s (enforce s)),
        u.tag = LATEST_TAG → u.version = w.version) ∧
      (∀ u ∈ eligibleOf (applyPatches s (enforce s)),
        keyLT (semver_key w.version) (semver_key u.version) = false) := by
  have h1 := prod_nonempty_of_eligible hel
  have h2 := eligibleAfter_nonempty hel
  have hspec := desired_spec h2
  have hmaster := enforce_tag_cases hnd hnl hcnt h1 h2
  rcases List.mem_map.mp hspec.1 with ⟨e, he, heq⟩
  have he' : e ∈ recoveredProd s := List.mem_of_mem_filter he
  rcases List.mem_map.mp (by rw [recoveredProd_eq] at he'; exact he') with ⟨rd, hrd, hrde⟩
  have hrdv : rd.version = desiredLatest s := by
    rw [← recoverRecord_version rd, hrde]; exact heq
  refine ⟨applyToRecord rd (enforce s), ?_, (hmaster rd hrd).1 hrdv, ?_, ?_⟩
  · apply List.mem_filter.mpr
    constructor
    · rw [prodVersions_applyPatches]
      exact List.mem_map_of_mem _ hrd
    · rw [(hmaster rd hrd).1 hrdv]
      decide
  · intro u hu hut
    have hu1 := (List.mem_filter.mp hu).1
    rw [prodVersions_applyPatches] at hu1
    rcases List.mem_map.mp hu1 with ⟨ru, hru, hrueq⟩
    by_cases hduv : ru.version = desiredLatest s
    · rw [← hrueq, applyToRecord_version, hduv, applyToRecord_version, hrdv]
    · exfalso
      have hne := ((hmaster ru hru).2 hduv).1
      rw [hrueq] at hne
      exact hne hut
  · intro u hu
    have humem := List.mem_filter.mp hu
    have hu1 := humem.1
    rw [prodVersions_applyPatches] at hu1
    rcases List.mem_map.mp hu1 with ⟨ru, hru, hrueq⟩
    have huv : u.version = ru.version := by rw [← hrueq, applyToRecord_version]
    have hmem : ru.version ∈ versionsOf (eligibleAfter s) := by
      by_cases hduv : ru.version = desiredLatest s
      · rw [hduv]; exact hspec.1
      · rcases ((hmaster ru hru).2 hduv).2 with hcase | hcase
        · have hq : pyStartsWith (recoverRecord ru).tag "quarantine" = false := by
            have h2q := humem.2
            rw [← hrueq] at h2q
            rw [hcase] at h2q
            simpa using h2q
          have helig : recoverRecord ru ∈ eligibleAfter s := by
            apply List.mem_filter.mpr
            refine ⟨?_, by simp [hq]⟩
            rw [recoveredProd_eq]; exact List.mem_map_of_mem _ hru
          have hm : (recoverRecord ru).version ∈ versionsOf (eligibleAfter s) :=
            List.mem_map_of_mem (fun r => r.version) helig
          rwa [recoverRecord_version] at hm
        · exact hcase.1
    rw [applyToRecord_version, hrdv, huv]
    exact hspec.2 _ hmem

/-- C1 witness: the amended claim applied to a concrete snapshot with
versions 1.0.0 (tagged latest) and 2.0.0: afterwards exactly one eligible
version is tagged latest and it is maximal. -/
theorem claim1_amended_witness :
    ∃ w ∈ eligibleOf (applyPatches
        [⟨"1.0.0", "RELEASED", "PROD", "latest", []⟩,
         ⟨"2.0.0", "RELEASED", "PROD", "", []⟩]
        (enforce
          [⟨"1.0.0", "RELEASED", "PROD", "latest", []⟩,
           ⟨"2.0.0", "RELEASED", "PROD", "", []⟩])),
      w.tag = LATEST_TAG ∧
      (∀ u ∈ eligibleOf (applyPatches
          [⟨"1.0.0", "RELEASED", "PROD", "latest", []⟩,
           ⟨"2.0.0", "RELEASED", "PROD", "", []⟩]
          (enforce
            [⟨"1.0.0", "RELEASED", "PROD", "latest", []⟩,
             ⟨"2.0.0", "RELEASED", "PROD", "", []⟩])),
        u.tag = LATEST_TAG → u.version = w.version) ∧
      (∀ u ∈ eligibleOf (applyPatches
          [⟨"1.0.0", "RELEASED", "PROD", "latest", []⟩,
           ⟨"2.0.0", "RELEASED", "PROD", "", []⟩]
          (enforce
            [⟨"1.0.0", "RELEASED", "PROD", "latest", []⟩,
             ⟨"2.0.0", "RELEASED", "PROD", "", []⟩])),
        keyLT (semver_key w.version) (semver_key u.version) = false) :=
  claim1_amended _ (by decide) (by decide) (by decide) (by decide)

theorem versionsOf_prod_applyPatches (s : List VersionRecord) (ps : List PatchCall) :
    versionsOf (prodVersions (applyPatches s ps)) = versionsOf (prodVersions s) := by
  rw [prodVersions_applyPatches]
  unfold versionsOf
  rw [List.map_map]
  apply List.map_congr_left
  intro r _
  exact applyToRecord_version _ _

theorem eligibleAfter_eq_of_noq {s : List VersionRecord}
    (hq : ∀ r ∈ prodVersions s, pyStartsWith r.tag "quarantine" = false) :
    eligibleAfter s = prodVersions s := by
  unfold eligibleAfter
  rw [recoveredProd_eq_prod hq]
  apply List.filter_eq_self.mpr
  intro u hu
  simp [hq u hu]

/-- After one enforcement run, no prod record's tag begins with "quarantine",
provided no stored backup restores such a tag. -/
theorem enforce_final_not_quarantine {s : List VersionRecord}
    (hnd : (versionsOf (prodVersions s)).Nodup)
    (hnl : ∀ r ∈ prodVersions s, r.version ≠ LATEST_TAG)
    (hcnt : (recoveredProd s).countP (fun v => v.tag == LATEST_TAG) ≤ 1)
    (h1 : (prodVersions s).isEmpty = false)
    (h2 : (eligibleAfter s).isEmpty = false)
    (hq4 : ∀ r ∈ prodVersions s, pyStartsWith (restoreTagQ r) "quarantine" = false)
    (hq5 : ∀ r ∈ prodVersions s, pyStartsWith (restoreTagL r) "quarantine" = false) :
    ∀ r ∈ prodVersions s,
      pyStartsWith (applyToRecord r (enforce s)).tag "quarantine" = false := by
  intro r hr
  have hmaster := enforce_tag_cases hnd hnl hcnt h1 h2 r hr
  by_cases hv : r.version = desiredLatest s
  · rw [hmaster.1 hv]
    decide
  · rcases (hmaster.2 hv).2 with hcase | hcase
    · rw [hcase]
      exact recoverRecord_tag_not_quarantine (hq4 r hr)
    · rw [hcase.2]
      exact hq5 r hr

/-- C2 (amended): on a well-formed snapshot — truly-in-prod version strings
pairwise distinct and distinct from "latest", at most one version tagged
latest after the recovery pass, and no stored backup restoring a tag that
begins with "quarantine" — a second invocation of
`enforce_latest_tag_invariants` with no intervening registry change issues
zero patch calls; and whenever no prod version carries a quarantine tag and
the version found tagged latest is already the engine's elected maximum, a
single invocation issues zero patch calls. -/
theorem claim2_amended (s : List VersionRecord)
    (hnd : (versionsOf (prodVersions s)).Nodup)
    (hnl : ∀ r ∈ prodVersions s, r.version ≠ LATEST_TAG)
    (hcnt : (recoveredProd s).countP (fun v => v.tag == LATEST_TAG) ≤ 1)
    (hq4 : ∀ r ∈ prodVersions s, pyStartsWith (restoreTagQ r) "quarantine" = false)
    (hq5 : ∀ r ∈ prodVersions s, pyStartsWith (restoreTagL r) "quarantine" = false) :
    enforce (applyPatches s (enforce s)) = [] ∧
    (∀ c : VersionRecord,
      (∀ r ∈ prodVersions s, pyStartsWith r.tag "quarantine" = false) →
      currentLatest s = some c → c.version = desiredLatest s → enforce s = []) := by
  constructor
  · cases hE : (prodVersions s).isEmpty with
    | true =>
      rw [enforce_of_prod_empty hE]
      show enforce (applyPatches s []) = []
      exact enforce_of_prod_empty hE
    | false =>
      have h1 : (prodVersions s).isEmpty = false := hE
      have h2 : (eligibleAfter s).isEmpty = false := by
        rw [eligibleAfter_eq_recovered hq4, recoveredProd_eq]
        cases hP : prodVersions s with
        | nil => rw [hP] at h1; simp at h1
        | cons a t => simp
      have hmaster := enforce_tag_cases hnd hnl hcnt h1 h2
      have hPF : prodVersions (applyPatches s (enforce s))
          = (prodVersions s).map (fun r => applyToRecord r (enforce s)) :=
        prodVersions_applyPatches s (enforce s)
      have hnoq : ∀ u ∈ prodVersions (applyPatches s (enforce s)),
          pyStartsWith u.tag "quarantine" = false := by
        intro u hu
        rw [hPF] at hu
        rcases List.mem_map.mp hu with ⟨r, hr, hre⟩
        rw [← hre]
        exact enforce_final_not_quarantine hnd hnl hcnt h1 h2 hq4 hq5 r hr
      have hrecF := recoveredProd_eq_prod hnoq
      have hrpF := recoveryPatches_nil hnoq
      have heligF := eligibleAfter_eq_of_noq hnoq
      have h1F : (prodVersions (applyPatches s (enforce s))).isEmpty = false := by
        rw [hPF]
        cases hP : prodVersions s with
        | nil => rw [hP] at h1; simp at h1
        | cons a t => simp
      have h2F : (eligibleAfter (applyPatches s (enforce s))).isEmpty = false := by
        rw [heligF]; exact h1F
      have h3F := sortedEligible_nonempty h2F
      have hsort : sortedEligible (applyPatches s (enforce s)) = sortedEligible s := by
        unfold sortedEligible
        congr 1
        rw [heligF, eligibleAfter_eq_recovered hq4]
        show versionsOf (prodVersions (applyPatches s (enforce s)))
          = versionsOf (recoveredProd s)
        rw [versionsOf_recoveredProd]
        exact versionsOf_prod_applyPatches s (enforce s)
      have hdes : desiredLatest (applyPatches s (enforce s)) = desiredLatest s := by
        unfold desiredLatest
        rw [hsort]
      have hspec := desired_spec h2
      rcases List.mem_map.mp hspec.1 with ⟨e, he, heq⟩
      have he' : e ∈ recoveredProd s := List.mem_of_mem_filter he
      rcases List.mem_map.mp (by rw [recoveredProd_eq] at he'; exact he') with ⟨rd, hrd, hrde⟩
      have hrdv : rd.version = desiredLatest s := by
        rw [← recoverRecord_version rd, hrde]; exact heq
      have hlatmem : applyToRecord rd (enforce s) ∈ prodVersions (applyPatches s (enforce s)) := by
        rw [hPF]; exact List.mem_map_of_mem _ hrd
      have hlattag : (applyToRecord rd (enforce s)).tag = LATEST_TAG := (hmaster rd hrd).1 hrdv
      have hfind : ∃ c2, currentLatest (applyPatches s (enforce s)) = some c2 := by
        unfold currentLatest
        rw [hrecF]
        have hsome : ((prodVersions (applyPatches s (enforce s))).find?
            (fun v => v.tag == LATEST_TAG)).isSome :=
          List.find?_isSome.mpr ⟨_, hlatmem, by simp [hlattag]⟩
        exact Option.isSome_iff_exists.mp hsome
      obtain ⟨c2, hc2⟩ := hfind
      have hc2spec := currentLatest_spec hc2
      have hc2v : c2.version = desiredLatest s := by
        have hc2m : c2 ∈ prodVersions (applyPatches s (enforce s)) := by
          rw [← hrecF]; exact hc2spec.1
        rw [hPF] at hc2m
        rcases List.mem_map.mp hc2m with ⟨r2, hr2, hr2e⟩
        by_cases hd2 : r2.version = desiredLatest s
        · rw [← hr2e, applyToRecord_version]; exact hd2
        · exact absurd (by rw [hr2e]; exact hc2spec.2) ((hmaster r2 hr2).2 hd2).1
      rw [enforce_of_current_eq h1F h2F h3F hc2 (by rw [hc2v]; exact hdes.symm)]
      exact hrpF
  · intro c hq hc he
    cases hE : (prodVersions s).isEmpty with
    | true => exact enforce_of_prod_empty hE
    | false =>
      have h2 : (eligibleAfter s).isEmpty = false := by
        rw [eligibleAfter_eq_of_noq hq]
        exact hE
      have h3 := sortedEligible_nonempty h2
      rw [enforce_of_current_eq hE h2 h3 hc he]
      exact recoveryPatches_nil hq

/-- C2 witness: the amended claim at a concrete snapshot — after promoting
2.0.0, a second run issues zero patches, and on an already-converged
snapshot a single run issues zero patches. -/
theorem claim2_amended_witness :
    (enforce (applyPatches
        [⟨"2.0.0", "RELEASED", "PROD", "", []⟩, ⟨"1.0.0", "RELEASED", "PROD", "latest", []⟩]
        (enforce
          [⟨"2.0.0", "RELEASED", "PROD", "", []⟩,
           ⟨"1.0.0", "RELEASED", "PROD", "latest", []⟩])) = [] ∧
      (∀ c : VersionRecord,
        (∀ r ∈ prodVersions
            [⟨"2.0.0", "RELEASED", "PROD", "", []⟩,
             ⟨"1.0.0", "RELEASED", "PROD", "latest", []⟩],
          pyStartsWith r.tag "quarantine" = false) →
        currentLatest
            [⟨"2.0.0", "RELEASED", "PROD", "", []⟩,
             ⟨"1.0.0", "RELEASED", "PROD", "latest", []⟩] = some c →
        c.version = desiredLatest
            [⟨"2.0.0", "RELEASED", "PROD", "", []⟩,
             ⟨"1.0.0", "RELEASED", "PROD", "latest", []⟩] →
        enforce
            [⟨"2.0.0", "RELEASED", "PROD", "", []⟩,
             ⟨"1.0.0", "RELEASED", "PROD", "latest", []⟩] = [])) :=
  claim2_amended _ (by decide) (by decide) (by decide) (by decide) (by decide)

/-- C2 counterexample: a truly-in-prod version still quarantine-tagged whose
`backup_before_quarantine` stores a tag that itself begins with "quarantine".
The first run restores that tag and deletes the backup; the second run sees a
quarantine tag again and issues further patches, so re-running with unchanged
registry state is not patch-free. -/
theorem claim2_counterexample :
    enforce (applyPatches
        [⟨"1.0.0", "RELEASED", "PROD", "quarantine-1.0.0",
          [(BACKUP_BEFORE_QUARANTINE, ["quarantine-old"])]⟩]
        (enforce
          [⟨"1.0.0", "RELEASED", "PROD", "quarantine-1.0.0",
            [(BACKUP_BEFORE_QUARANTINE, ["quarantine-old"])]⟩])) ≠ [] := by
  decide

/-- C1 counterexample: on a snapshot where two eligible versions both carry
tag "latest" and the first listed one (1.5.0) wins the engine's
dotted-integer ordering, enforcement is a no-op, so afterwards two eligible
versions still carry tag "latest" — not exactly one — and the latest-tagged
1.5.0 is not the SemVer-2.0 maximum (2.0.0-beta outranks it). -/
theorem claim1_counterexample :
    (eligibleOf (applyPatches
        [⟨"1.5.0", "RELEASED", "PROD", "latest", []⟩,
         ⟨"2.0.0-beta", "RELEASED", "PROD", "latest", []⟩]
        (enforce
          [⟨"1.5.0", "RELEASED", "PROD", "latest", []⟩,
           ⟨"2.0.0-beta", "RELEASED", "PROD", "latest", []⟩]))).countP
      (fun v => v.tag == LATEST_TAG) = 2 ∧
    MainApp.sort_versions_by_semver_desc ["1.5.0", "2.0.0-beta"]
      = ["2.0.0-beta", "1.5.0"] := by
  constructor
  · decide
  · decide

/-- `pick_next_latest` on a non-empty candidate list returns a candidate
that is maximal for the engine's ordering key. -/
theorem pick_next_latest_spec {prod : List VersionRecord} {ex : String}
    (h : pickCandidates prod ex ≠ []) :
    ∃ c, pick_next_latest prod ex = some c ∧ c ∈ pickCandidates prod ex ∧
      ∀ u ∈ pickCandidates prod ex,
        keyLT (semver_key c.version) (semver_key u.version) = false := by
  have hie : (pickCandidates prod ex).isEmpty = false := by
    cases hc : pickCandidates prod ex with
    | nil => exact absurd hc h
    | cons a t => rfl
  have hne : (pickCandidates prod ex).map (fun v => v.version) ≠ [] := by
    intro hcon
    rw [List.map_eq_nil_iff] at hcon
    exact h hcon
  rcases sort_head_max _ hne with ⟨v, t, hs, hv, hmax⟩
  rcases List.mem_map.mp hv with ⟨c0, hc0, hc0v⟩
  have hsome : ((pickCandidates prod ex).find? (fun c => c.version == v)).isSome :=
    List.find?_isSome.mpr ⟨c0, hc0, by simp [hc0v]⟩
  obtain ⟨c, hcfind⟩ := Option.isSome_iff_exists.mp hsome
  have hcv : c.version = v := by simpa using List.find?_some hcfind
  refine ⟨c, ?_, List.mem_of_find?_eq_some hcfind, ?_⟩
  · unfold pick_next_latest
    show (if (pickCandidates prod ex).isEmpty = true then none
      else match (sort_versions_by_semver_desc
          ((pickCandidates prod ex).map (fun v => v.version))).head? with
        | none => none
        | some target => (pickCandidates prod ex).find? (fun c => c.version == target))
      = some c
    rw [hie]
    show (match (sort_versions_by_semver_desc
        ((pickCandidates prod ex).map (fun v => v.version))).head? with
      | none => none
      | some target => (pickCandidates prod ex).find? (fun c => c.version == target)) = some c
    rw [hs]
    exact hcfind
  · intro u hu
    rw [hcv]
    exact hmax _ (List.mem_map_of_mem _ hu)

/-- The rollback handler's patch list when the target holds the latest tag
and a successor exists. -/
theorem rollback_eq_promote {s : List VersionRecord} {tgt : String} {t c : VersionRecord}
    (hfind : (prodVersions s).find? (fun v => v.version == tgt) = some t)
    (htag : t.tag = LATEST_TAG)
    (hpick : pick_next_latest (prodVersions s) tgt = some c) :
    handle_rollback_tagging s tgt =
      [backup_tag_then_patch tgt BACKUP_BEFORE_QUARANTINE ("quarantine-" ++ tgt) t.tag,
       backup_tag_then_patch c.version BACKUP_BEFORE_LATEST LATEST_TAG c.tag] := by
  unfold handle_rollback_tagging
  rw [hfind]
  simp [htag, hpick]

theorem applyToRecord_pair (r : VersionRecord) (p q : PatchCall) :
    applyToRecord r [p, q] = applyPatchRecord (applyPatchRecord r p) q := rfl

/-- C5 (amended): rolling back the latest-tagged target quarantines it with
tag "quarantine-<target>" and promotes, among the remaining versions whose
tag begins with neither "quarantine" nor "Quarantine", the maximum under the
engine's dotted-integer ordering — on plain numeral versions (as in the
spec's 2.0.0/1.9.0 example) this coincides with the SemVer maximum, but on
prerelease strings the two orderings can differ. -/
theorem claim5_amended (s : List VersionRecord) (tgt : String)
    (hnd : (versionsOf (prodVersions s)).Nodup)
    {t : VersionRecord} (ht : t ∈ prodVersions s) (htv : t.version = tgt)
    (htag : t.tag = LATEST_TAG)
    (hc : pickCandidates (prodVersions s) tgt ≠ []) :
    ∃ c, pick_next_latest (prodVersions s) tgt = some c ∧
      c ∈ pickCandidates (prodVersions s) tgt ∧
      (∀ u ∈ pickCandidates (prodVersions s) tgt,
        keyLT (semver_key c.version) (semver_key u.version) = false) ∧
      (∀ u ∈ prodVersions (applyPatches s (handle_rollback_tagging s tgt)),
        (u.version = tgt → u.tag = "quarantine-" ++ tgt) ∧
        (u.version = c.version → u.tag = LATEST_TAG)) := by
  have hsome : ((prodVersions s).find? (fun v => v.version == tgt)).isSome :=
    List.find?_isSome.mpr ⟨t, ht, by simp [htv]⟩
  obtain ⟨t', ht'⟩ := Option.isSome_iff_exists.mp hsome
  have ht'm := List.mem_of_find?_eq_some ht'
  have ht'v : t'.version = tgt := by simpa using List.find?_some ht'
  have htt : t' = t := eq_of_version_eq hnd ht'm ht (by rw [ht'v, htv])
  rw [htt] at ht'
  obtain ⟨c, hpick, hcmem, hcmax⟩ := pick_next_latest_spec hc
  have hrb := rollback_eq_promote ht' htag hpick
  have hcfilter := List.mem_filter.mp hcmem
  have hcne : c.version ≠ tgt := by
    have h2 := hcfilter.2
    simp at h2
    tauto
  refine ⟨c, hpick, hcmem, hcmax, ?_⟩
  intro u hu
  rw [prodVersions_applyPatches] at hu
  rcases List.mem_map.mp hu with ⟨r, hr, hre⟩
  have hrv : u.version = r.version := by rw [← hre, applyToRecord_version]
  constructor
  · intro huv
    rw [← hre, hrb, applyToRecord_pair]
    have h1 : (applyPatchRecord r
        (backup_tag_then_patch tgt BACKUP_BEFORE_QUARANTINE ("quarantine-" ++ tgt) t.tag)).tag
        = "quarantine-" ++ tgt :=
      applyPatchRecord_tag_of_eq (by rw [← hrv, huv]; rfl) rfl
    rw [applyPatchRecord_of_ne ?hne2]
    · exact h1
    case hne2 =>
      show c.version ≠ _
      rw [applyPatchRecord_version, ← hrv, huv]
      exact hcne
  · intro huv
    rw [← hre, hrb, applyToRecord_pair]
    have hskip : applyPatchRecord r
        (backup_tag_then_patch tgt BACKUP_BEFORE_QUARANTINE ("quarantine-" ++ tgt) t.tag) = r := by
      apply applyPatchRecord_of_ne
      show tgt ≠ _
      rw [← hrv, huv]
      exact fun he => hcne he.symm
    rw [hskip]
    exact applyPatchRecord_tag_of_eq (by rw [← hrv, huv]; rfl) rfl

/-- C5 witness: the spec's own example — eligible versions 2.0.0 (tagged
latest) and 1.9.0; rolling back 2.0.0 quarantines it and promotes 1.9.0. -/
theorem claim5_amended_witness :
    ∃ c, pick_next_latest (prodVersions
        [⟨"2.0.0", "RELEASED", "PROD", "latest", []⟩,
         ⟨"1.9.0", "RELEASED", "PROD", "1.9.0", []⟩]) "2.0.0" = some c ∧
      c ∈ pickCandidates (prodVersions
        [⟨"2.0.0", "RELEASED", "PROD", "latest", []⟩,
         ⟨"1.9.0", "RELEASED", "PROD", "1.9.0", []⟩]) "2.0.0" ∧
      (∀ u ∈ pickCandidates (prodVersions
          [⟨"2.0.0", "RELEASED", "PROD", "latest", []⟩,
           ⟨"1.9.0", "RELEASED", "PROD", "1.9.0", []⟩]) "2.0.0",
        keyLT (semver_key c.version) (semver_key u.version) = false) ∧
      (∀ u ∈ prodVersions (applyPatches
          [⟨"2.0.0", "RELEASED", "PROD", "latest", []⟩,
           ⟨"1.9.0", "RELEASED", "PROD", "1.9.0", []⟩]
          (handle_rollback_tagging
            [⟨"2.0.0", "RELEASED", "PROD", "latest", []⟩,
             ⟨"1.9.0", "RELEASED", "PROD", "1.9.0", []⟩] "2.0.0")),
        (u.version = "2.0.0" → u.tag = "quarantine-" ++ "2.0.0") ∧
        (u.version = c.version → u.tag = LATEST_TAG)) :=
  claim5_amended _ "2.0.0" (by decide)
    (t := ⟨"2.0.0", "RELEASED", "PROD", "latest", []⟩)
    (by decide) (by decide) (by decide) (by decide)

/-- C5 counterexample: rolling back 2.0.0 with remaining versions
3.0.0-rc.1 and 1.0.0. The SemVer-2.0 maximum of the remaining set is
3.0.0-rc.1 (as the prerelease-aware sorter shows), but the engine's
dotted-integer key cannot parse it, so 1.0.0 is promoted to latest and
3.0.0-rc.1 is not. -/
theorem claim5_counterexample :
    MainApp.sort_versions_by_semver_desc ["3.0.0-rc.1", "1.0.0"]
      = ["3.0.0-rc.1", "1.0.0"] ∧
    (applyPatches
        [⟨"2.0.0", "RELEASED", "PROD", "latest", []⟩,
         ⟨"3.0.0-rc.1", "RELEASED", "PROD", "", []⟩,
         ⟨"1.0.0", "RELEASED", "PROD", "", []⟩]
        (handle_rollback_tagging
          [⟨"2.0.0", "RELEASED", "PROD", "latest", []⟩,
           ⟨"3.0.0-rc.1", "RELEASED", "PROD", "", []⟩,
           ⟨"1.0.0", "RELEASED", "PROD", "", []⟩] "2.0.0")).map
      (fun r => (r.version, r.tag))
      = [("2.0.0", "quarantine-2.0.0"), ("3.0.0-rc.1", ""), ("1.0.0", "latest")] := by
  constructor
  · decide
  · decide

/-- C7: a rollback whose target version is absent from the truly-in-prod set
issues zero patch calls and leaves the registry unchanged; the handler
returns normally. -/
theorem claim7 (s : List VersionRecord) (tgt : String)
    (h : ∀ r ∈ prodVersions s, r.version ≠ tgt) :
    handle_rollback_tagging s tgt = [] ∧
      applyPatches s (handle_rollback_tagging s tgt) = s := by
  have hfind : (prodVersions s).find? (fun v => v.version == tgt) = none :=
    List.find?_eq_none.mpr (fun r hr => by simp [h r hr])
  have hnil : handle_rollback_tagging s tgt = [] := by
    unfold handle_rollback_tagging
    rw [hfind]
  exact ⟨hnil, by rw [hnil]; rfl⟩

/-- C7 witness: rolling back a version that is not truly in prod (1.0.0 is
only STAGED) mutates nothing. -/
theorem claim7_witness :
    handle_rollback_tagging
        [⟨"1.0.0", "STAGED", "QA", "", []⟩,
         ⟨"2.0.0", "RELEASED", "PROD", "latest", []⟩] "1.0.0" = [] ∧
      applyPatches
        [⟨"1.0.0", "STAGED", "QA", "", []⟩,
         ⟨"2.0.0", "RELEASED", "PROD", "latest", []⟩]
        (handle_rollback_tagging
          [⟨"1.0.0", "STAGED", "QA", "", []⟩,
           ⟨"2.0.0", "RELEASED", "PROD", "latest", []⟩] "1.0.0")
        = [⟨"1.0.0", "STAGED", "QA", "", []⟩,
           ⟨"2.0.0", "RELEASED", "PROD", "latest", []⟩] :=
  claim7 _ "1.0.0" (by decide)

/-- C3 (code evaluated at the failing input): 1.0.0 currently holds
tag "latest" with no `backup_before_latest` property, 2.0.0 is promoted.
The demotion should fall back to the version string "1.0.0", but the
line-331 initializer makes the engine restore the literal string "version"
instead. -/
theorem claim3_bug :
    applyPatches
        [⟨"1.0.0", "RELEASED", "PROD", "latest", []⟩,
         ⟨"2.0.0", "RELEASED", "PROD", "", []⟩]
        (enforce
          [⟨"1.0.0", "RELEASED", "PROD", "latest", []⟩,
           ⟨"2.0.0", "RELEASED", "PROD", "", []⟩])
      = [⟨"1.0.0", "RELEASED", "PROD", "version", []⟩,
         ⟨"2.0.0", "RELEASED", "PROD", "latest", []⟩] ∧
    restoreTagL ⟨"1.0.0", "RELEASED", "PROD", "latest", []⟩ = "version" ∧
    (∀ r : VersionRecord,
      lookupProp r.properties BACKUP_BEFORE_LATEST = some [""] → restoreTagL r = r.version) ∧
    (∀ r : VersionRecord,
      lookupProp r.properties BACKUP_BEFORE_LATEST = some [LATEST_TAG] →
        restoreTagL r = r.version) := by
  refine ⟨by decide, by decide, ?_, ?_⟩
  · intro r h
    unfold restoreTagL
    rw [h]
    rfl
  · intro r h
    unfold restoreTagL
    rw [h]
    rfl

/-- C6 (amended): during enforcement's recovery pass, a truly-in-prod
version with a quarantine-prefixed tag has its tag restored from the first
element of `backup_before_quarantine` (falling back to its version string
when the property is absent or an empty list), the property is deleted by
the issued patch, and — provided the restored tag does not itself begin with
"quarantine" — the recovered version is counted as eligible in the same
invocation. -/
theorem claim6_amended (s : List VersionRecord) (r : VersionRecord)
    (hr : r ∈ prodVersions s) (hq : pyStartsWith r.tag "quarantine" = true)
    (hres : pyStartsWith (restoreTagQ r) "quarantine" = false) :
    recoveryPatch? r = some
      { version := r.version, tag := some (restoreTagQ r),
        properties := none, delete_properties := some [BACKUP_BEFORE_QUARANTINE] } ∧
    ({ version := r.version, tag := some (restoreTagQ r),
       properties := none, delete_properties := some [BACKUP_BEFORE_QUARANTINE] } : PatchCall)
      ∈ recoveryPatches s ∧
    (recoverRecord r).tag = restoreTagQ r ∧
    recoverRecord r ∈ eligibleAfter s ∧
    (lookupProp r.properties BACKUP_BEFORE_QUARANTINE = none → restoreTagQ r = r.version) ∧
    (lookupProp r.properties BACKUP_BEFORE_QUARANTINE = some [] → restoreTagQ r = r.version) ∧
    (∀ t0 rest, lookupProp r.properties BACKUP_BEFORE_QUARANTINE = some (t0 :: rest) →
      restoreTagQ r = t0) := by
  have hpatch : recoveryPatch? r = some
      { version := r.version, tag := some (restoreTagQ r),
        properties := none, delete_properties := some [BACKUP_BEFORE_QUARANTINE] } := by
    unfold recoveryPatch?
    rw [hq]
    rfl
  have htag : (recoverRecord r).tag = restoreTagQ r := by
    unfold recoverRecord
    rw [hq]
    rfl
  refine ⟨hpatch, ?_, htag, ?_, ?_, ?_, ?_⟩
  · rw [recoveryPatches_eq]
    exact List.mem_filterMap.mpr ⟨r, hr, hpatch⟩
  · apply List.mem_filter.mpr
    refine ⟨?_, by simp [htag, hres]⟩
    rw [recoveredProd_eq]
    exact List.mem_map_of_mem _ hr
  · intro h
    unfold restoreTagQ
    rw [h]
  · intro h
    unfold restoreTagQ
    rw [h]
  · intro t0 rest h
    unfold restoreTagQ
    rw [h]

/-- C6 witness: the spec's recovery example — a truly-in-prod version still
tagged quarantine-1.2.0 with backup ["1.2.0"] is restored to tag "1.2.0" and
counted eligible in the same invocation. -/
theorem claim6_amended_witness :
    (recoverRecord ⟨"1.2.0", "RELEASED", "PROD", "quarantine-1.2.0",
        [(BACKUP_BEFORE_QUARANTINE, ["1.2.0"])]⟩).tag
      = restoreTagQ ⟨"1.2.0", "RELEASED", "PROD", "quarantine-1.2.0",
        [(BACKUP_BEFORE_QUARANTINE, ["1.2.0"])]⟩ ∧
    restoreTagQ ⟨"1.2.0", "RELEASED", "PROD", "quarantine-1.2.0",
        [(BACKUP_BEFORE_QUARANTINE, ["1.2.0"])]⟩ = "1.2.0" ∧
    recoverRecord ⟨"1.2.0", "RELEASED", "PROD", "quarantine-1.2.0",
        [(BACKUP_BEFORE_QUARANTINE, ["1.2.0"])]⟩
      ∈ eligibleAfter
        [⟨"1.2.0", "RELEASED", "PROD", "quarantine-1.2.0",
          [(BACKUP_BEFORE_QUARANTINE, ["1.2.0"])]⟩,
         ⟨"1.0.0", "RELEASED", "PROD", "latest", []⟩] :=
  ⟨(claim6_amended
      [⟨"1.2.0", "RELEASED", "PROD", "quarantine-1.2.0",
        [(BACKUP_BEFORE_QUARANTINE, ["1.2.0"])]⟩,
       ⟨"1.0.0", "RELEASED", "PROD", "latest", []⟩]
      ⟨"1.2.0", "RELEASED", "PROD", "quarantine-1.2.0",
        [(BACKUP_BEFORE_QUARANTINE, ["1.2.0"])]⟩
      (by decide) (by decide) (by decide)).2.2.1,
   (claim6_amended
      [⟨"1.2.0", "RELEASED", "PROD", "quarantine-1.2.0",
        [(BACKUP_BEFORE_QUARANTINE, ["1.2.0"])]⟩,
       ⟨"1.0.0", "RELEASED", "PROD", "latest", []⟩]
      ⟨"1.2.0", "RELEASED", "PROD", "quarantine-1.2.0",
        [(BACKUP_BEFORE_QUARANTINE, ["1.2.0"])]⟩
      (by decide) (by decide) (by decide)).2.2.2.2.2.2 "1.2.0" [] (by decide),
   (claim6_amended
      [⟨"1.2.0", "RELEASED", "PROD", "quarantine-1.2.0",
        [(BACKUP_BEFORE_QUARANTINE, ["1.2.0"])]⟩,
       ⟨"1.0.0", "RELEASED", "PROD", "latest", []⟩]
      ⟨"1.2.0", "RELEASED", "PROD", "quarantine-1.2.0",
        [(BACKUP_BEFORE_QUARANTINE, ["1.2.0"])]⟩
      (by decide) (by decide) (by decide)).2.2.2.1⟩

/-- C6 counterexample: when `backup_before_quarantine` stores a tag that
itself begins with "quarantine" ("quarantine-z"), the recovery pass restores
that tag, and the recovered version is NOT counted as eligible in the same
invocation, contrary to the claim's unconditional wording. -/
theorem claim6_counterexample :
    (recoverRecord ⟨"1.0.0", "RELEASED", "PROD", "quarantine-1.0.0",
        [(BACKUP_BEFORE_QUARANTINE, ["quarantine-z"])]⟩).tag = "quarantine-z" ∧
    ¬ (recoverRecord ⟨"1.0.0", "RELEASED", "PROD", "quarantine-1.0.0",
        [(BACKUP_BEFORE_QUARANTINE, ["quarantine-z"])]⟩
      ∈ eligibleAfter
        [⟨"1.0.0", "RELEASED", "PROD", "quarantine-1.0.0",
          [(BACKUP_BEFORE_QUARANTINE, ["quarantine-z"])]⟩,
         ⟨"2.0.0", "RELEASED", "PROD", "latest", []⟩]) := by
  decide

/-- C8 (code evaluated at the failing input): executing the rollback of
2.0.0 twice on {2.0.0: latest, 1.9.0: 1.9.0}. After the second run the
target's `backup_before_quarantine` holds the quarantine tag itself
("quarantine-2.0.0"), not the tag held before the first quarantine
("latest"), so the double execution does not leave the single-execution
state. -/
theorem claim8_bug :
    applyPatches
        (applyPatches
          [⟨"2.0.0", "RELEASED", "PROD", "latest", []⟩,
           ⟨"1.9.0", "RELEASED", "PROD", "1.9.0", []⟩]
          (handle_rollback_tagging
            [⟨"2.0.0", "RELEASED", "PROD", "latest", []⟩,
             ⟨"1.9.0", "RELEASED", "PROD", "1.9.0", []⟩] "2.0.0"))
        (handle_rollback_tagging
          (applyPatches
            [⟨"2.0.0", "RELEASED", "PROD", "latest", []⟩,
             ⟨"1.9.0", "RELEASED", "PROD", "1.9.0", []⟩]
            (handle_rollback_tagging
              [⟨"2.0.0", "RELEASED", "PROD", "latest", []⟩,
               ⟨"1.9.0", "RELEASED", "PROD", "1.9.0", []⟩] "2.0.0")) "2.0.0")
      = [⟨"2.0.0", "RELEASED", "PROD", "quarantine-2.0.0",
          [(BACKUP_BEFORE_QUARANTINE, ["quarantine-2.0.0"])]⟩,
         ⟨"1.9.0", "RELEASED", "PROD", "latest", [(BACKUP_BEFORE_LATEST, ["1.9.0"])]⟩] ∧
    applyPatches
        [⟨"2.0.0", "RELEASED", "PROD", "latest", []⟩,
         ⟨"1.9.0", "RELEASED", "PROD", "1.9.0", []⟩]
        (handle_rollback_tagging
          [⟨"2.0.0", "RELEASED", "PROD", "latest", []⟩,
           ⟨"1.9.0", "RELEASED", "PROD", "1.9.0", []⟩] "2.0.0")
      = [⟨"2.0.0", "RELEASED", "PROD", "quarantine-2.0.0",
          [(BACKUP_BEFORE_QUARANTINE, ["latest"])]⟩,
         ⟨"1.9.0", "RELEASED", "PROD", "latest", [(BACKUP_BEFORE_LATEST, ["1.9.0"])]⟩] := by
  constructor
  · decide
  · decide

/-- C9 (amended): semver parsing is total (modelled as a total function) and
the prerelease-aware sorter of the main module returns only strings that
parse; the tagging-service sorter instead keeps every input string —
including invalid ones, ranked lowest with the sentinel key — in its output,
which is a permutation of the input. -/
theorem claim9_amended :
    (∀ (l : List String) (v : String),
      v ∈ MainApp.sort_versions_by_semver_desc l → MainApp.SemVer.parse v ≠ none) ∧
    (∀ l : List String, (sort_versions_by_semver_desc l).Perm l) := by
  constructor
  · intro l v hv
    unfold MainApp.sort_versions_by_semver_desc at hv
    rcases List.mem_map.mp hv with ⟨pair, hpair, hpv⟩
    have hpair' : pair ∈ l.filterMap
        (fun v => (MainApp.SemVer.parse v).map (fun sv => (sv, v))) :=
      (List.perm_insertionSort MainApp.semverGE _).mem_iff.mp hpair
    rcases List.mem_filterMap.mp hpair' with ⟨orig, _, hmap⟩
    cases hparse : MainApp.SemVer.parse orig with
    | none => rw [hparse] at hmap; cases hmap
    | some sv =>
      rw [hparse] at hmap
      have hsome : some (sv, orig) = some pair := hmap
      have hpo : (sv, orig) = pair := Option.some.inj hsome
      rw [← hpv, ← hpo]
      simp [hparse]
  · exact fun l => sort_perm l

/-- C9 witness: a valid member of the main-module sorter's output parses;
the tagging-service sorter's output on ["foo"] is a permutation of it. -/
theorem claim9_amended_witness :
    MainApp.SemVer.parse "1.0.0" ≠ none ∧
      (sort_versions_by_semver_desc ["foo"]).Perm ["foo"] :=
  ⟨claim9_amended.1 ["1.0.0"] "1.0.0" (by decide), claim9_amended.2 ["foo"]⟩

/-- C9 counterexample: "foo" is not a valid semantic version, yet the
tagging-service ordering operation returns it among the sorted versions
(ranked last), so invalid strings are not excluded from every ordering
operation. -/
theorem claim9_counterexample :
    MainApp.SemVer.parse "foo" = none ∧
      sort_versions_by_semver_desc ["foo", "1.0.0"] = ["1.0.0", "foo"] := by
  decide

/-- C10: promoting or quarantining a version whose current tag is empty
sends a patch with no properties field (and no delete_properties), such a
patch leaves the record's properties unchanged, and a later recovery
(resp. demotion) of a record without the backup property takes the fallback
path: the version string for `backup_before_quarantine`, the line-331
literal "version" for `backup_before_latest`. -/
theorem claim10 (version key new_tag : String) (r : VersionRecord) (p : PatchCall)
    (hp : p.properties = none) (hd : p.delete_properties = none)
    (hbq : lookupProp r.properties BACKUP_BEFORE_QUARANTINE = none)
    (hbl : lookupProp r.properties BACKUP_BEFORE_LATEST = none) :
    (backup_tag_then_patch version key new_tag "").properties = none ∧
    (backup_tag_then_patch version key new_tag "").delete_properties = none ∧
    (applyPatchRecord r p).properties = r.properties ∧
    restoreTagQ r = r.version ∧
    restoreTagL r = "version" := by
  refine ⟨rfl, rfl, ?_, ?_, ?_⟩
  · unfold applyPatchRecord
    rw [hp, hd]
    split
    · show deleteProps (setProps r.properties []) [] = r.properties
      show deleteProps r.properties [] = r.properties
      simp [deleteProps]
    · rfl
  · unfold restoreTagQ
    rw [hbq]
  · unfold restoreTagL
    rw [hbl]
    rfl

/-- C10 witness: the empty-tag promotion patch for 2.0.0 carries no
properties, and the fallbacks for a record without backups are its version
string (recovery) and the literal "version" (demotion). -/
theorem claim10_witness :
    (backup_tag_then_patch "2.0.0" BACKUP_BEFORE_LATEST LATEST_TAG "").properties = none ∧
    (backup_tag_then_patch "2.0.0" BACKUP_BEFORE_LATEST LATEST_TAG "").delete_properties
      = none ∧
    (applyPatchRecord ⟨"2.0.0", "RELEASED", "PROD", "", []⟩
        (backup_tag_then_patch "2.0.0" BACKUP_BEFORE_LATEST LATEST_TAG "")).properties
      = (⟨"2.0.0", "RELEASED", "PROD", "", []⟩ : VersionRecord).properties ∧
    restoreTagQ ⟨"2.0.0", "RELEASED", "PROD", "", []⟩ = "2.0.0" ∧
    restoreTagL ⟨"2.0.0", "RELEASED", "PROD", "", []⟩ = "version" :=
  claim10 "2.0.0" BACKUP_BEFORE_LATEST LATEST_TAG
    ⟨"2.0.0", "RELEASED", "PROD", "", []⟩
    (backup_tag_then_patch "2.0.0" BACKUP_BEFORE_LATEST LATEST_TAG "")
    (by decide) (by decide) (by decide) (by decide)

end TaggingService

theorem ne_of_isDigit {c : Char} (h : c.isDigit = true) (d : Char)
    (hd : d.isDigit = false) : c ≠ d := by
  intro he
  rw [he, hd] at h
  cases h

theorem not_ws_of_isDigit {c : Char} (h : c.isDigit = true) : isPyWS c = false := by
  unfold isPyWS
  simp only [Bool.or_eq_false_iff]
  refine ⟨⟨⟨⟨⟨?_, ?_⟩, ?_⟩, ?_⟩, ?_⟩, ?_⟩ <;>
    exact beq_eq_false_iff_ne.mpr (ne_of_isDigit h _ (by decide))

theorem dropWhile_eq_self_of_not_ws {l : List Char} (h : ∀ c ∈ l, isPyWS c = false) :
    l.dropWhile isPyWS = l := by
  cases l with
  | nil => rfl
  | cons c t =>
    rw [List.dropWhile_cons, h c (List.mem_cons_self c t)]
    simp

theorem stripWS_eq_self {l : List Char} (h : ∀ c ∈ l, isPyWS c = false) :
    stripWS l = l := by
  unfold stripWS
  rw [dropWhile_eq_self_of_not_ws h,
    dropWhile_eq_self_of_not_ws (fun c hc => h c (List.mem_reverse.mp hc)),
    List.reverse_reverse]

theorem isCanonNum_spec {l : List Char} (h : MainApp.isCanonNum l = true) :
    l ≠ [] ∧ ∀ c ∈ l, c.isDigit = true := by
  cases l with
  | nil => cases h
  | cons c t =>
    unfold MainApp.isCanonNum at h
    simp only [Bool.and_eq_true] at h
    refine ⟨by simp, ?_⟩
    intro d hd
    rcases List.mem_cons.mp hd with he | ht
    · rw [he]; exact h.1.1
    · exact (List.all_eq_true.mp h.1.2) d ht

theorem pyInt?_digits {l : List Char} (hne : l ≠ []) (hd : ∀ c ∈ l, c.isDigit = true) :
    pyInt? l = some ((digitsVal l : Nat) : Int) := by
  have hstrip : stripWS l = l :=
    stripWS_eq_self (fun c hc => not_ws_of_isDigit (hd c hc))
  obtain ⟨c0, t0, hl⟩ : ∃ c0 t0, l = c0 :: t0 := by
    cases l with
    | nil => exact absurd rfl hne
    | cons x y => exact ⟨x, y, rfl⟩
  have hc0 : c0.isDigit = true := hd c0 (by rw [hl]; exact List.mem_cons_self _ _)
  unfold pyInt?
  rw [hstrip, hl]
  rw [if_neg ?hm, if_neg ?hp]
  case hm =>
    simp only [List.head?]
    intro hcon
    have hce : c0 = '-' := by injection hcon
    exact ne_of_isDigit hc0 '-' (by decide) hce
  case hp =>
    simp only [List.head?]
    intro hcon
    have hce : c0 = '+' := by injection hcon
    exact ne_of_isDigit hc0 '+' (by decide) hce
  have hall : (c0 :: t0).all Char.isDigit = true :=
    List.all_eq_true.mpr (by rw [← hl]; exact hd)
  simp [decDigits?, hall]

theorem splitDots_ne_nil : ∀ l : List Char, splitDots l ≠ [] := by
  intro l
  induction l with
  | nil => simp [splitDots]
  | cons c t ih =>
    unfold splitDots
    split
    · simp
    · cases hs : splitDots t with
      | nil => simp
      | cons h ts => simp

theorem splitDots_join : ∀ l : List Char, joinDots (splitDots l) = l := by
  intro l
  induction l with
  | nil => rfl
  | cons c t ih =>
    unfold splitDots
    split
    · rename_i hc
      subst hc
      cases hs : splitDots t with
      | nil => exact absurd hs (splitDots_ne_nil t)
      | cons h ts =>
        show '.' :: joinDots (h :: ts) = '.' :: t
        rw [← hs, ih]
    · rename_i hc
      cases hs : splitDots t with
      | nil => exact absurd hs (splitDots_ne_nil t)
      | cons h ts =>
        cases ts with
        | nil =>
          rw [hs] at ih
          show c :: joinDots [h] = c :: t
          rw [ih]
        | cons h2 ts2 =>
          rw [hs] at ih
          show c :: joinDots (h :: h2 :: ts2) = c :: t
          rw [ih]

theorem splitDots_three {l a b c : List Char} (h : splitDots l = [a, b, c]) :
    l = a ++ '.' :: (b ++ '.' :: c) := by
  have hj := splitDots_join l
  rw [h] at hj
  rw [← hj]
  rfl

theorem chars_of_three {l a b c : List Char} (h : splitDots l = [a, b, c])
    (ha : ∀ ch ∈ a, ch.isDigit = true) (hb : ∀ ch ∈ b, ch.isDigit = true)
    (hc : ∀ ch ∈ c, ch.isDigit = true) :
    ∀ ch ∈ l, ch.isDigit = true ∨ ch = '.' := by
  intro ch hch
  rw [splitDots_three h] at hch
  rcases List.mem_append.mp hch with h1 | h2
  · exact Or.inl (ha ch h1)
  · rcases List.mem_cons.mp h2 with he | h3
    · exact Or.inr he
    · rcases List.mem_append.mp h3 with h4 | h5
      · exact Or.inl (hb ch h4)
      · rcases List.mem_cons.mp h5 with he | h6
        · exact Or.inr he
        · exact Or.inl (hc ch h6)

theorem splitFirst_of_not_mem {sep : Char} :
    ∀ {l : List Char}, sep ∉ l → MainApp.splitFirst sep l = (l, none) := by
  intro l
  induction l with
  | nil => intro _; rfl
  | cons c t ih =>
    intro h
    unfold MainApp.splitFirst
    rw [if_neg (fun he => h (by rw [← he]; exact List.mem_cons_self c t))]
    rw [ih (fun hm => h (List.mem_cons_of_mem c hm))]

theorem parseCore?_canonical {core a b c : List Char} (hsp : splitDots core = [a, b, c])
    (ha : MainApp.isCanonNum a = true) (hb : MainApp.isCanonNum b = true)
    (hc : MainApp.isCanonNum c = true) :
    MainApp.parseCore? core = some (digitsVal a, digitsVal b, digitsVal c) := by
  unfold MainApp.parseCore?
  rw [hsp]
  simp [ha, hb, hc]

theorem vstrip_of_head_digit {c0 : Char} {t0 : List Char} (hc0 : c0.isDigit = true) :
    MainApp.vstrip (c0 :: t0) = c0 :: t0 := by
  unfold MainApp.vstrip
  rw [if_neg]
  intro hcon
  simp only [List.head?] at hcon
  have hce : c0 = 'v' := by injection hcon
  exact ne_of_isDigit hc0 'v' (by decide) hce

/-- A canonical numeral triple parses to the three numeral values with an
empty prerelease. -/
theorem parse_canonical {s : String} {a b c : List Char}
    (hsp : splitDots s.toList = [a, b, c])
    (ha : MainApp.isCanonNum a = true) (hb : MainApp.isCanonNum b = true)
    (hc : MainApp.isCanonNum c = true) :
    MainApp.SemVer.parse s = some ⟨digitsVal a, digitsVal b, digitsVal c, [], s⟩ := by
  obtain ⟨haN, haD⟩ := isCanonNum_spec ha
  obtain ⟨hbN, hbD⟩ := isCanonNum_spec hb
  obtain ⟨hcN, hcD⟩ := isCanonNum_spec hc
  have hchars := chars_of_three hsp haD hbD hcD
  have hnws : ∀ ch ∈ s.toList, isPyWS ch = false := by
    intro ch hch
    rcases hchars ch hch with hdig | he
    · exact not_ws_of_isDigit hdig
    · rw [he]; decide
  have hstrip : stripWS s.toList = s.toList := stripWS_eq_self hnws
  obtain ⟨a0, a', hae⟩ : ∃ a0 a', a = a0 :: a' := by
    cases a with
    | nil => exact absurd rfl haN
    | cons x y => exact ⟨x, y, rfl⟩
  have hlform : s.toList = a0 :: (a' ++ '.' :: (b ++ '.' :: c)) := by
    rw [splitDots_three hsp, hae]
    rfl
  have hvs : MainApp.vstrip (stripWS s.toList) = s.toList := by
    rw [hstrip, hlform]
    exact vstrip_of_head_digit (haD a0 (by rw [hae]; exact List.mem_cons_self _ _))
  have hplus : MainApp.splitFirst '+' s.toList = (s.toList, none) := by
    apply splitFirst_of_not_mem
    intro hm
    rcases hchars '+' hm with hdig | he
    · exact absurd hdig (by decide)
    · exact absurd he (by decide)
  have hminus : MainApp.splitFirst '-' s.toList = (s.toList, none) := by
    apply splitFirst_of_not_mem
    intro hm
    rcases hchars '-' hm with hdig | he
    · exact absurd hdig (by decide)
    · exact absurd he (by decide)
  unfold MainApp.SemVer.parse
  rw [hvs, hplus]
  dsimp only
  rw [hminus]
  dsimp only
  rw [parseCore?_canonical hsp ha hb hc]
  rfl

/-- On a canonical numeral triple the engine's key is exactly the parsed
numeral triple. -/
theorem semver_key_canonical {s : String} {a b c : List Char}
    (hsp : splitDots s.toList = [a, b, c])
    (ha : MainApp.isCanonNum a = true) (hb : MainApp.isCanonNum b = true)
    (hc : MainApp.isCanonNum c = true) :
    TaggingService.semver_key s =
      [((digitsVal a : Nat) : Int), ((digitsVal b : Nat) : Int),
       ((digitsVal c : Nat) : Int)] := by
  obtain ⟨haN, haD⟩ := isCanonNum_spec ha
  obtain ⟨hbN, hbD⟩ := isCanonNum_spec hb
  obtain ⟨hcN, hcD⟩ := isCanonNum_spec hc
  have h1 := pyInt?_digits haN haD
  have h2 := pyInt?_digits hbN hbD
  have h3 := pyInt?_digits hcN hcD
  unfold TaggingService.semver_key
  rw [hsp]
  simp [List.mapM, List.mapM.loop, h1, h2, h3]

theorem canonicalTriple_decomp {s : String} (h : isCanonicalTriple s = true) :
    ∃ a b c, splitDots s.toList = [a, b, c] ∧ MainApp.isCanonNum a = true ∧
      MainApp.isCanonNum b = true ∧ MainApp.isCanonNum c = true := by
  unfold isCanonicalTriple at h
  rcases hsp : splitDots s.toList with _ | ⟨a, _ | ⟨b, _ | ⟨c, _ | ⟨d, t⟩⟩⟩⟩ <;>
    rw [hsp] at h <;> simp at h
  exact ⟨a, b, c, rfl, h.1.1, h.1.2, h.2⟩

theorem keyLT3_false_iff {x1 x2 x3 y1 y2 y3 : Int} :
    TaggingService.keyLT [x1, x2, x3] [y1, y2, y3] = false ↔
      (y1 < x1 ∨ (y1 = x1 ∧ (y2 < x2 ∨ (y2 = x2 ∧ y3 ≤ x3)))) := by
  simp only [TaggingService.keyLT]
  split_ifs <;> simp <;> omega

/-- When the engine's key order prefers the first prerelease-free version,
the prerelease-aware comparator agrees. -/
theorem compare_semver_nonneg {a0 b0 c0 av bv cv : Nat} {o1 o2 : String}
    (h : TaggingService.keyLT [((a0 : Nat) : Int), ((b0 : Nat) : Int), ((c0 : Nat) : Int)]
        [((av : Nat) : Int), ((bv : Nat) : Int), ((cv : Nat) : Int)] = false) :
    0 ≤ MainApp.compare_semver ⟨a0, b0, c0, [], o1⟩ ⟨av, bv, cv, [], o2⟩ := by
  have h' := keyLT3_false_iff.mp h
  unfold MainApp.compare_semver
  dsimp only
  simp only [List.isEmpty_nil, Bool.not_true, Bool.and_false, Bool.false_and,
    show MainApp.comparePreIds [] [] = (0 : Int) from rfl]
  split_ifs <;> omega

/-- C4 (amended): the engine uses the naive dotted-integer comparator for
its invariant decisions; on every list of canonical MAJOR.MINOR.PATCH
numerals its selected maximum — the head of its descending sort — is also a
maximum for the prerelease-aware SemVer 2.0 comparator, but on prerelease
or invalid strings the two orderings diverge. -/
theorem claim4_amended (l : List String)
    (hl : ∀ v ∈ l, isCanonicalTriple v = true) (hne : l ≠ []) :
    ∃ h0 t, TaggingService.sort_versions_by_semver_desc l = h0 :: t ∧
      ∀ v ∈ l, ∃ x y, MainApp.SemVer.parse h0 = some x ∧
        MainApp.SemVer.parse v = some y ∧ 0 ≤ MainApp.compare_semver x y := by
  rcases TaggingService.sort_head_max l hne with ⟨h0, t, hs, h0mem, hmax⟩
  refine ⟨h0, t, hs, ?_⟩
  intro v hv
  obtain ⟨a0, b0, c0, hsp0, ha0, hb0, hc0⟩ := canonicalTriple_decomp (hl h0 h0mem)
  obtain ⟨av, bv, cv, hspv, hav, hbv, hcv⟩ := canonicalTriple_decomp (hl v hv)
  have hp0 := parse_canonical hsp0 ha0 hb0 hc0
  have hpv := parse_canonical hspv hav hbv hcv
  have hk0 := semver_key_canonical hsp0 ha0 hb0 hc0
  have hkv := semver_key_canonical hspv hav hbv hcv
  have hK := hmax v hv
  rw [hk0, hkv] at hK
  exact ⟨_, _, hp0, hpv, compare_semver_nonneg hK⟩

/-- C4 witness: the amended claim on the canonical list ["1.0.0", "2.0.0"]:
the engine's head is also a SemVer-2.0 maximum. -/
theorem claim4_amended_witness :
    ∃ h0 t, TaggingService.sort_versions_by_semver_desc ["1.0.0", "2.0.0"] = h0 :: t ∧
      ∀ v ∈ ["1.0.0", "2.0.0"], ∃ x y, MainApp.SemVer.parse h0 = some x ∧
        MainApp.SemVer.parse v = some y ∧ 0 ≤ MainApp.compare_semver x y :=
  claim4_amended ["1.0.0", "2.0.0"] (by decide) (by decide)

/-- C4 counterexample: on ["2.0.0-alpha", "1.0.0"] the engine's ordering
(used for invariant decisions, e.g. `desiredLatest`) picks 1.0.0, while the
prerelease-aware SemVer 2.0 comparator of the main module ranks 2.0.0-alpha
first — the engine's ordering does not agree with the prerelease-aware
comparator on every list of version strings. -/
theorem claim4_counterexample :
    TaggingService.sort_versions_by_semver_desc ["2.0.0-alpha", "1.0.0"]
      = ["1.0.0", "2.0.0-alpha"] ∧
    MainApp.sort_versions_by_semver_desc ["2.0.0-alpha", "1.0.0"]
      = ["2.0.0-alpha", "1.0.0"] ∧
    TaggingService.desiredLatest
        [⟨"2.0.0-alpha", "RELEASED", "PROD", "", []⟩,
         ⟨"1.0.0", "RELEASED", "PROD", "", []⟩]
      = "1.0.0" := by
  refine ⟨by decide, by decide, by decide⟩

end BookVerse
